import Mathlib

/-!
Verification of the GoBalance reverse proxy (github.com/Nash0810/GoBalance).

This development shallowly embeds the Go source of the load balancer in Lean:

* `internal/backend` (Backend, HealthState, Pool) — health flags, counters;
* `internal/balancer` (round-robin, least-connections, smooth weighted
  round-robin strategies; the Router's `ServeHTTP` retry loop);
* `internal/health` (per-backend circuit breaker with a sliding failure
  window; passive tracker);
* `internal/retry` (retry policy and the adaptive retry budget);
* `internal/metrics` (the backend-state gauge exported by the exporter).

Modelling conventions:

* Go machine integers (`int`, `int64`, `uint64`) are modelled as `Int`
  (resp. `Nat` for the unsigned round-robin counter, reduced mod `2^64`
  where the source wraps).  The sentinels `math.MaxInt64` and
  `math.MinInt` that appear in the source are kept as the literal values
  `2^63 - 1` and `-2^63`.
* `time.Time` / `time.Duration` values are integers in nanoseconds; each
  operation that calls `time.Now()` in Go takes the current time `now`
  as an explicit argument.
* Mutation of shared structures becomes explicit state passing: every
  operation returns the updated structure (paired with its Go return
  value where there is one).
* Concurrency is sequentialized: each Go critical section or atomic
  read-modify-write becomes one atomic step of the embedded function.
* Wall-clock timestamp bookkeeping fields that no claim reads
  (`LastCheck`, `LastSuccess`, `LastFailure` of `HealthMetrics`) are not
  carried in the state.
-/

namespace GoBalance

/-! ## `internal/backend`: health states and backends (`part_002`, `part_003`) -/

/-- Go `HealthState`, declared with `iota` in `part_002`:
`Healthy`, `Unhealthy`, `Draining`, `Down` (in that order). -/
inductive HealthState where
  | Healthy
  | Unhealthy
  | Draining
  | Down
deriving DecidableEq, Repr

/-- The numeric value of a `HealthState` as Go produces it by integer
conversion (`float64(b.GetState())` in `exporter.go`): the `iota`
ordinal, `Healthy = 0`, `Unhealthy = 1`, `Draining = 2`, `Down = 3`. -/
def HealthState.code : HealthState → Int
  | .Healthy => 0
  | .Unhealthy => 1
  | .Draining => 2
  | .Down => 3

/-- The encoding of the `gobalance_backend_state` gauge as documented by
the gauge's own Help string in `collector.go`
("0=DOWN, 1=UNHEALTHY, 2=DRAINING, 3=HEALTHY") and by the spec. -/
def HealthState.documentedGaugeCode : HealthState → Int
  | .Down => 0
  | .Unhealthy => 1
  | .Draining => 2
  | .Healthy => 3

/-- Go `Backend` (`part_003`).  `url` stands for the `URL` field (we keep
the rendered string, which is also the identity key used throughout the
repository); `active` is the atomic `ActiveRequests` counter;
`consecutiveSuccesses` / `consecutiveFailures` are the rolling
`HealthMetrics` counters. -/
structure Backend where
  url : String
  alive : Bool
  state : HealthState
  consecutiveSuccesses : Int
  consecutiveFailures : Int
  active : Int
  weight : Int
deriving DecidableEq, Repr

/-- Go `NewBackend`: alive, `Healthy`, zero metrics, weight 1. -/
def newBackend (u : String) : Backend :=
  { url := u
    alive := true
    state := .Healthy
    consecutiveSuccesses := 0
    consecutiveFailures := 0
    active := 0
    weight := 1 }

/-- Go `Backend.IsAlive`. -/
def Backend.isAlive (b : Backend) : Bool := b.alive

/-- Go `Backend.SetAlive`: sets the `alive` flag only. -/
def Backend.setAlive (b : Backend) (alive : Bool) : Backend :=
  { b with alive := alive }

/-- Go `Backend.GetState`. -/
def Backend.getState (b : Backend) : HealthState := b.state

/-- Go `Backend.SetState`: sets the state and, in the same critical
section, recomputes `alive = (state == Healthy)`. -/
def Backend.setState (b : Backend) (s : HealthState) : Backend :=
  { b with state := s, alive := decide (s = .Healthy) }

/-- Go `Backend.RecordHealthCheckSuccess` (timestamp fields omitted). -/
def Backend.recordHealthCheckSuccess (b : Backend) : Backend :=
  { b with
    consecutiveSuccesses := b.consecutiveSuccesses + 1
    consecutiveFailures := 0 }

/-- Go `Backend.RecordHealthCheckFailure` (timestamp fields omitted). -/
def Backend.recordHealthCheckFailure (b : Backend) : Backend :=
  { b with
    consecutiveFailures := b.consecutiveFailures + 1
    consecutiveSuccesses := 0 }

/-- Go `Backend.IncrementActiveRequests` (atomic add 1). -/
def Backend.incrementActiveRequests (b : Backend) : Backend :=
  { b with active := b.active + 1 }

/-- Go `Backend.DecrementActiveRequests` (atomic add -1). -/
def Backend.decrementActiveRequests (b : Backend) : Backend :=
  { b with active := b.active - 1 }

/-- Go `Backend.GetActiveRequests`. -/
def Backend.getActiveRequests (b : Backend) : Int := b.active

/-- Go `Backend.SetWeight`: clamps the argument into `[1, 100]`. -/
def Backend.setWeight (b : Backend) (w : Int) : Backend :=
  { b with weight := if w < 1 then 1 else if w > 100 then 100 else w }

/-- The value the metrics exporter writes to the `gobalance_backend_state`
gauge for a backend: `float64(b.GetState())` in `exporter.go`, i.e. the
`iota` ordinal of the current state. -/
def exportedBackendStateValue (b : Backend) : Int :=
  b.getState.code

/-- The public mutating operations of `Backend`, for stating invariants
over arbitrary call sequences. -/
inductive BackendOp where
  | setState (s : HealthState)
  | setAlive (alive : Bool)
  | recordHealthCheckSuccess
  | recordHealthCheckFailure
  | setWeight (w : Int)
  | incActive
  | decActive
deriving DecidableEq, Repr

/-- Apply one public mutating operation. -/
def Backend.applyOp (b : Backend) : BackendOp → Backend
  | .setState s => b.setState s
  | .setAlive a => b.setAlive a
  | .recordHealthCheckSuccess => b.recordHealthCheckSuccess
  | .recordHealthCheckFailure => b.recordHealthCheckFailure
  | .setWeight w => b.setWeight w
  | .incActive => b.incrementActiveRequests
  | .decActive => b.decrementActiveRequests

/-- Apply a sequence of public mutating operations, oldest first. -/
def Backend.applyOps (b : Backend) (ops : List BackendOp) : Backend :=
  ops.foldl Backend.applyOp b

/-! ## `internal/health`: circuit breaker (`part_001`) -/

/-- Go `CircuitState` (`iota`): `StateClosed`, `StateOpen`,
`StateHalfOpen`. -/
inductive CircuitState where
  | closed
  | opened
  | halfOpen
deriving DecidableEq, Repr

/-- Field `failureThreshold` as set by `NewCircuitBreaker`: 5 failures in the
window open the circuit. -/
def cbFailureThreshold : Nat := 5

/-- Field `successThreshold` as set by `NewCircuitBreaker`: 2 successes close a
half-open circuit. -/
def cbSuccessThreshold : Int := 2

/-- Field `timeout` as set by `NewCircuitBreaker`: `30 * time.Second`, in
nanoseconds. -/
def cbTimeout : Int := 30 * 1000000000

/-- Field `windowSize` as set by `NewCircuitBreaker`: `10 * time.Second`, in
nanoseconds. -/
def cbWindowSize : Int := 10 * 1000000000

/-- Go `CircuitBreaker` (`part_001`); the `name` field is dropped (it is
only logged), times are nanosecond integers. -/
structure CircuitBreaker where
  state : CircuitState
  successes : Int
  lastFailTime : Int
  recentFailures : List Int
deriving DecidableEq, Repr

/-- Go `NewCircuitBreaker`: closed, empty window (the `time.Time` zero
value of `lastFailTime` is rendered as 0). -/
def newCircuitBreaker : CircuitBreaker :=
  { state := .closed
    successes := 0
    lastFailTime := 0
    recentFailures := [] }

/-- Go `CircuitBreaker.cleanOldFailures`: keep the timestamps `t` with
`t.After(now - windowSize)`, i.e. `now - windowSize < t`. -/
def CircuitBreaker.cleanOldFailures (cb : CircuitBreaker) (now : Int) :
    CircuitBreaker :=
  { cb with
    recentFailures := cb.recentFailures.filter fun t =>
      decide (now - cbWindowSize < t) }

/-- Go `CircuitBreaker.AllowRequest`: returns the admission decision and
the updated breaker. -/
def CircuitBreaker.allowRequest (cb : CircuitBreaker) (now : Int) :
    Bool × CircuitBreaker :=
  match cb.state with
  | .closed => (true, cb)
  | .opened =>
    if cbTimeout ≤ now - cb.lastFailTime then
      (true, { cb with state := .halfOpen, successes := 0 })
    else
      (false, cb)
  | .halfOpen => (true, cb)

/-- Go `CircuitBreaker.RecordSuccess`. -/
def CircuitBreaker.recordSuccess (cb : CircuitBreaker) (now : Int) :
    CircuitBreaker :=
  let cb := { cb with successes := cb.successes + 1 }
  if cb.state = .halfOpen then
    if cbSuccessThreshold ≤ cb.successes then
      { cb with state := .closed, recentFailures := [], successes := 0 }
    else cb
  else if cb.state = .closed then
    cb.cleanOldFailures now
  else cb

/-- Go `CircuitBreaker.RecordFailure`: append the new timestamp, update
`lastFailTime`, evict stale entries, then apply the state transition.
The two `time.Now()` reads inside one `RecordFailure` call (the append
and the eviction cutoff) are modelled as the same instant `now`. -/
def CircuitBreaker.recordFailure (cb : CircuitBreaker) (now : Int) :
    CircuitBreaker :=
  let cb :=
    CircuitBreaker.cleanOldFailures
      { cb with
        recentFailures := cb.recentFailures ++ [now]
        lastFailTime := now }
      now
  if cb.state = .halfOpen then
    { cb with state := .opened, successes := 0 }
  else if cb.state = .closed then
    if cbFailureThreshold ≤ cb.recentFailures.length then
      { cb with state := .opened }
    else cb
  else cb

/-- Go `CircuitBreaker.GetState`. -/
def CircuitBreaker.getState (cb : CircuitBreaker) : CircuitState := cb.state

/-! ## `internal/retry`: adaptive budget (`part_006`) and policy (`retry.go`) -/

/-- Go `Budget` (`part_006`): token bucket whose refill rate adapts to
the observed request rate.  `lastRefill` is a Unix-seconds timestamp. -/
structure Budget where
  tokens : Int
  maxTokens : Int
  percent : Int
  refillRate : Int
  lastRefill : Int
  requestCounter : Int
deriving DecidableEq, Repr

/-- Go `NewBudget`: clamp the percentage into `[1, 100]` and seed the
bucket assuming a 1000 req/s baseline (`maxTokens = 1000*percent/100`).
`now` is the Unix-seconds creation time (`time.Now().Unix()`). -/
def newBudget (percent : Int) (now : Int) : Budget :=
  let p := if percent < 1 then 1 else if percent > 100 then 100 else percent
  let maxT : Int := 1000 * p / 100
  { tokens := maxT
    maxTokens := maxT
    percent := p
    refillRate := maxT
    lastRefill := now
    requestCounter := 0 }

/-- Go `Budget.TrackRequest`: atomically bump the request counter. -/
def Budget.trackRequest (b : Budget) : Budget :=
  { b with requestCounter := b.requestCounter + 1 }

/-- Go `Budget.refill`, sequentialized (the CAS on `lastRefill` always
succeeds for the single caller): if a second boundary has passed, swap
out the request counter as the observed rate, adapt `refillRate` and
`maxTokens` when the rate is positive, then add `elapsed * refillRate`
tokens clamped to `maxTokens`. -/
def Budget.refill (b : Budget) (now : Int) : Budget :=
  if now ≤ b.lastRefill then b
  else
    let last := b.lastRefill
    let actualRate := b.requestCounter
    let b := { b with lastRefill := now, requestCounter := 0 }
    let b :=
      if 0 < actualRate then
        let rate := actualRate * b.percent / 100
        let rate := if rate < 1 then 1 else rate
        let newMaxTokens := actualRate * b.percent / 100
        { b with
          refillRate := rate
          maxTokens := if 0 < newMaxTokens then newMaxTokens else b.maxTokens }
      else b
    let tokensToAdd := (now - last) * b.refillRate
    let newTokens := b.tokens + tokensToAdd
    { b with tokens := if b.maxTokens < newTokens then b.maxTokens else newTokens }

/-- Go `Budget.TryConsume`: refill, then decrement a token if any remain
(the CAS loop reduces to one test-and-decrement when sequentialized). -/
def Budget.tryConsume (b : Budget) (now : Int) : Bool × Budget :=
  let b := b.refill now
  if b.tokens ≤ 0 then (false, b)
  else (true, { b with tokens := b.tokens - 1 })

/-- Go `Budget.GetAvailable`. -/
def Budget.getAvailable (b : Budget) (now : Int) : Int × Budget :=
  let b := b.refill now
  (b.tokens, b)

/-- Lowercase a Go string (`strings.ToLower`), on the character list of
the string; ASCII-faithful. -/
def lowerChars (s : List Char) : List Char := s.map Char.toLower

/-- Substring containment (`strings.Contains`) on character lists. -/
def charsContain (hay sub : List Char) : Bool :=
  match hay with
  | [] => sub.isEmpty
  | _ :: rest => sub.isPrefixOf hay || charsContain rest sub

/-- The `retryableErrors` substrings listed in `isRetryableError`
(`retry.go`), verbatim, including the upper-case `"EOF"` entry. -/
def retryableErrors : List String :=
  ["connection refused", "connection reset", "broken pipe",
   "no route to host", "i/o timeout", "EOF", "deadline exceeded",
   "status 5"]

/-- Go `isRetryableError` (`retry.go`): lowercase the error text, then
look for any of the listed substrings.  `none` stands for a nil error. -/
def isRetryableError (err : Option String) : Bool :=
  match err with
  | none => false
  | some e =>
    retryableErrors.any fun pat => charsContain (lowerChars e.data) pat.data

/-- Go `isIdempotent` (`retry.go`). -/
def isIdempotent (method : String) : Bool :=
  match method with
  | "GET" | "HEAD" | "OPTIONS" | "PUT" | "DELETE" => true
  | "POST" => false
  | _ => false

/-- The request state the retry policy reads: the HTTP method and
whether the client's context has been cancelled
(`req.Context().Err() != nil`). -/
structure GoRequest where
  method : String
  ctxCanceled : Bool
deriving DecidableEq, Repr

/-- Go `Policy` (`retry.go`): the configured attempt limit and the
shared budget. -/
structure Policy where
  maxAttempts : Int
  budget : Budget
deriving DecidableEq, Repr

/-- Go `Policy.ShouldRetry`: cancellation, attempt limit, idempotent
method, retryable error, then `TrackRequest` and `TryConsume` on the
budget.  Returns the decision and the policy with the updated budget. -/
def Policy.shouldRetry (p : Policy) (req : GoRequest) (err : Option String)
    (attempt : Int) (now : Int) : Bool × Policy :=
  if req.ctxCanceled then (false, p)
  else if p.maxAttempts ≤ attempt then (false, p)
  else if ¬ isIdempotent req.method then (false, p)
  else
    match err with
    | none => (false, p)
    | some e =>
      if ¬ isRetryableError (some e) then (false, p)
      else
        let b := p.budget.trackRequest
        let (ok, b) := b.tryConsume now
        (ok, { p with budget := b })

/-! ## `internal/backend`: pool (`pool.go`) -/

/-- Go `Pool.GetHealthyBackends`: the backends whose `IsAlive()` read is
true, in pool order. -/
def getHealthyBackends (pool : List Backend) : List Backend :=
  pool.filter fun b => b.isAlive

/-! ## `internal/balancer`: strategies -/

/-- Go `RoundRobinStrategy`: a `uint64` counter, modelled as a natural
number below `2^64`. -/
structure RoundRobinStrategy where
  counter : Nat
deriving DecidableEq, Repr

/-- Go `RoundRobinStrategy.SelectBackend` applied to the healthy
snapshot: atomically increment the counter (wrapping as `uint64`), and
index with `(count - 1) mod N` (`uint64` subtraction). -/
def rrSelectBackend (rr : RoundRobinStrategy) (healthy : List Backend) :
    Option Backend × RoundRobinStrategy :=
  if healthy.length = 0 then (none, rr)
  else
    let count := (rr.counter + 1) % 2 ^ 64
    let index := ((count + (2 ^ 64 - 1)) % 2 ^ 64) % healthy.length
    (healthy.get? index, { counter := count })

/-- The `math.MaxInt64` sentinel that initializes the least-connections
scan. -/
def maxInt64 : Int := 2 ^ 63 - 1

/-- Go `LeastConnectionsStrategy.SelectBackend` applied to the healthy
snapshot: scan for the backend with strictly fewest active requests,
starting from the `math.MaxInt64` sentinel; first minimum wins. -/
def lcSelectBackend (healthy : List Backend) : Option Backend :=
  if healthy.length = 0 then none
  else
    (healthy.foldl
      (fun (acc : Option Backend × Int) b =>
        if b.getActiveRequests < acc.2 then (some b, b.getActiveRequests)
        else acc)
      (none, maxInt64)).1

/-- Go `WeightedBackend` (`weightedrr.go`): the stored backend instance
(set when the entry is created and never replaced), the configured
weight (refreshed from the pool on every selection), and the smoothing
`currentWeight`. -/
structure WeightedBackend where
  backend : Backend
  weight : Int
  currentWeight : Int
deriving DecidableEq, Repr

/-- The `math.MinInt` sentinel that initializes the maximum scan of the
smooth weighted round-robin loop (64-bit build). -/
def minInt64 : Int := -(2 ^ 63)

/-- The reconciliation phase of `WeightedRoundRobinStrategy.SelectBackend`:
insert entries for new keys (`currentWeight = 0`), refresh the
configured weight of existing keys, and drop keys absent from the
healthy snapshot.  The Go map is keyed by `b.URL.String()`; all its
operations here are key lookups and key-set updates, so only its
CONTENTS matter and the entry list stored in snapshot order represents
them faithfully.  The map's per-call randomized `range` order does
matter to the selection loop that follows; it is NOT canonicalized
there but passed explicitly (`wrrScanPerm`/`wrrStepPerm` below take the
iteration order as a parameter; `wrrScan`/`wrrStep` are the snapshot-
order instance, used for the properties that do not depend on the
order).  `reconcileEntry` is the per-key body: refresh the weight of a
found entry, or insert a fresh one. -/
def reconcileEntry (entries : List WeightedBackend) (b : Backend) :
    WeightedBackend :=
  match entries.find? (fun e => e.backend.url = b.url) with
  | some e => { e with weight := b.weight }
  | none => { backend := b, weight := b.weight, currentWeight := 0 }

/-- The reconciliation phase of `WeightedRoundRobinStrategy.SelectBackend`
over the whole healthy snapshot. -/
def wrrReconcile (entries : List WeightedBackend) (healthy : List Backend) :
    List WeightedBackend :=
  healthy.map (reconcileEntry entries)

/-- The maximum scan of the smooth weighted round-robin loop: walk the
(already incremented) `currentWeight` values left to right, keeping the
running best starting from the `math.MinInt` sentinel; the selection is
updated only on a strict increase, so the first occurrence of the
maximum wins.  Returns the selected position, `none` if no value beats
the sentinel. -/
def wrrScanAux : List Int → Nat → Int → Option Nat → Option Nat
  | [], _, _, sel => sel
  | c :: cs, i, best, sel =>
    if best < c then wrrScanAux cs (i + 1) c (some i)
    else wrrScanAux cs (i + 1) best sel

/-- Entry point of the maximum scan: position 0, best = `math.MinInt`,
nothing selected. -/
def wrrScan (cws : List Int) : Option Nat :=
  wrrScanAux cws 0 minInt64 none

/-- The increment pass of the smooth weighted round-robin loop
(`wb.currentWeight += wb.weight` for every entry). -/
def wrrBumped (entries : List WeightedBackend) : List WeightedBackend :=
  entries.map fun e => { e with currentWeight := e.currentWeight + e.weight }

/-- One smooth weighted round-robin step over a reconciled entry list
(the selection half of `SelectBackend`): add each entry's weight to its
`currentWeight`, pick the first entry with the maximal `currentWeight`
(Go folds the increment and the scan into one loop; the fused loop
compares exactly these incremented values), and subtract the total
weight from the chosen entry.  Returns the updated entries and the
chosen position. -/
def wrrStep (entries : List WeightedBackend) :
    List WeightedBackend × Option Nat :=
  let bumped := wrrBumped entries
  let total := (bumped.map fun e => e.weight).sum
  match wrrScan (bumped.map fun e => e.currentWeight) with
  | some j =>
    (bumped.modify
      (fun e => { e with currentWeight := e.currentWeight - total }) j,
     some j)
  | none => (bumped, none)

/-- Go `WeightedRoundRobinStrategy.SelectBackend` applied to the healthy
snapshot: empty snapshot short-circuits to `nil`; otherwise reconcile
the entry map and run one smooth step, returning the stored backend of
the chosen entry. -/
def wrrSelectBackend (entries : List WeightedBackend)
    (healthy : List Backend) : Option Backend × List WeightedBackend :=
  if healthy.length = 0 then (none, entries)
  else
    let es := wrrReconcile entries healthy
    let (es, sel) := wrrStep es
    (sel.bind fun j => (es.get? j).map fun e => e.backend, es)

/-- One comparison of the selection loop at the entry in position `k`:
look the position up and update the running best only on a strict
increase (`wb.currentWeight > maxCurrentWeight` in the source); a
position outside the list changes nothing (it never arises when the
order enumerates the map's entries). -/
def scanStep (cws : List Int) (acc : Option Nat × Int) (k : Nat) :
    Option Nat × Int :=
  match cws.get? k with
  | some c => if acc.2 < c then (some k, c) else acc
  | none => acc

/-- The maximum scan of `SelectBackend`'s selection loop when the Go
map's `range` presents the entries in the order `ord` (a list of entry
positions — Go randomizes this order on every call): running best from
the `math.MinInt` sentinel, updated only on a strict increase, so the
first maximum in `ord` order wins. -/
def wrrScanPerm (cws : List Int) (ord : List Nat) : Option Nat :=
  (ord.foldl (scanStep cws) (none, minInt64)).1

/-- One smooth weighted round-robin step over a reconciled entry list,
with the map's iteration order `ord` made explicit: add each entry's
weight to its `currentWeight`, scan in `ord` order for the strictly
greatest incremented value, and subtract the total weight from the
chosen entry.  `wrrStep` is this step at the snapshot iteration
order. -/
def wrrStepPerm (entries : List WeightedBackend) (ord : List Nat) :
    List WeightedBackend × Option Nat :=
  let bumped := wrrBumped entries
  let total := (bumped.map fun e => e.weight).sum
  match wrrScanPerm (bumped.map fun e => e.currentWeight) ord with
  | some j =>
    (bumped.modify
      (fun e => { e with currentWeight := e.currentWeight - total }) j,
     some j)
  | none => (bumped, none)

/-- Go `WeightedRoundRobinStrategy.SelectBackend` with the map's
iteration order for the selection loop made explicit. -/
def wrrSelectBackendPerm (entries : List WeightedBackend)
    (healthy : List Backend) (ord : List Nat) :
    Option Backend × List WeightedBackend :=
  if healthy.length = 0 then (none, entries)
  else
    let es := wrrReconcile entries healthy
    let (es, sel) := wrrStepPerm es ord
    (sel.bind fun j => (es.get? j).map fun e => e.backend, es)

/-! ## `internal/health`: passive tracker (`passive.go`) -/

/-- Replace the pool entry with the given URL key by its image under
`f` (pointer mutation of a shared `*Backend`, keyed by URL). -/
def updatePool (pool : List Backend) (url : String) (f : Backend → Backend) :
    List Backend :=
  pool.map fun b => if b.url = url then f b else b

/-- Go `PassiveTracker.RecordSuccess`: reset the failure streak (via
`RecordHealthCheckSuccess`) only when failures are pending. -/
def passiveRecordSuccess (pool : List Backend) (url : String) :
    List Backend :=
  updatePool pool url fun b =>
    if 0 < b.consecutiveFailures then b.recordHealthCheckSuccess else b

/-- Go `PassiveTracker.RecordFailure`: bump the failure streak; a
`Healthy` backend whose streak reaches the tracker's threshold is set
`Unhealthy`. -/
def passiveRecordFailure (pool : List Backend) (url : String)
    (threshold : Int) : List Backend :=
  updatePool pool url fun b =>
    let b := b.recordHealthCheckFailure
    if b.getState = .Healthy ∧ threshold ≤ b.consecutiveFailures then
      b.setState .Unhealthy
    else b

/-! ## `internal/balancer`: the Router (`balancer.go`, retry version)

The Router embedded here is the full version of `Balancer.ServeHTTP`
(the one with retries, circuit breakers and metrics — the second
document in `balancer.go`, cited by the claims).  What is abstracted:

* the request-ID header and all logging/metrics sinks (write-only);
* body buffering (`bodyBytes`): the embedded scenarios carry no request
  body (`r.Body == nil`), under which the buffering block is a no-op;
* forwarding: `backend.ReverseProxy.ServeHTTP(crw, r)` becomes an
  oracle `outcomes : Nat → Outcome` giving, per attempt number, either
  the upstream status captured by the `captureResponseWriter` or a
  panic raised during forwarding (Go's `httputil.ReverseProxy` panics
  with `http.ErrAbortHandler` when the client goes away mid-copy; there
  is no `recover` anywhere in the repository, so a panic propagates out
  of `ServeHTTP`, skipping everything after the forwarding call);
* client cancellation: `canceled : Nat → Bool` gives the value of
  `r.Context().Err() != nil` during the given attempt;
* the strategy is instantiated with round-robin (the default). -/

/-- The outcome of one forwarding attempt. -/
inductive Outcome where
  | status (code : Int)
  | panicked
deriving DecidableEq, Repr

/-- How `ServeHTTP` terminates, seen from the client. -/
inductive Response where
  /-- The upstream status streamed through the `captureResponseWriter`. -/
  | upstream (code : Int)
  /-- A proxy-originated 503 (no healthy backend, or circuit open on the
  last attempt). -/
  | serviceUnavailable
  /-- The proxy-originated 499 on client cancellation. -/
  | canceled499
  /-- A panic escaped from the handler during forwarding. -/
  | panicked
  /-- The attempt loop was exhausted by a final `continue` and the
  handler fell off the end without writing anything. -/
  | noResponse
deriving DecidableEq, Repr

/-- Counters observed while a request is handled: forwarding attempts
performed, and the per-backend increment/decrement calls on the active
request counters, in order. -/
structure RunLog where
  forwards : Nat
  incs : List String
  decs : List String
deriving DecidableEq, Repr

/-- The Router's mutable surroundings: the pool, the round-robin
counter, the per-backend circuit breaker map, the optional retry policy
(`nil` disables retrying), and the passive tracker's threshold (5 in
`main.go`). -/
structure RouterState where
  pool : List Backend
  rr : RoundRobinStrategy
  breakers : List (String × CircuitBreaker)
  policy : Option Policy
  passiveThreshold : Int
deriving DecidableEq, Repr

/-- Read side of `Balancer.getCircuitBreaker`: the breaker stored for
the key, or a fresh one (double-checked insertion collapses to
lookup-or-create when sequentialized). -/
def lookupBreaker (brs : List (String × CircuitBreaker)) (key : String) :
    CircuitBreaker :=
  match brs.find? (fun e => e.1 = key) with
  | some e => e.2
  | none => newCircuitBreaker

/-- Write side of `Balancer.getCircuitBreaker` / breaker updates: store
the breaker under the key. -/
def storeBreaker (brs : List (String × CircuitBreaker)) (key : String)
    (cb : CircuitBreaker) : List (String × CircuitBreaker) :=
  if brs.any (fun e => e.1 = key) then
    brs.map fun e => if e.1 = key then (key, cb) else e
  else brs ++ [(key, cb)]

/-- The error the Router reports for an upstream 5xx:
`fmt.Errorf("status %d", crw.statusCode)`. -/
def statusErrText (code : Int) : String := "status " ++ toString code

/-- The `for attempt := 1; attempt <= maxAttempts; attempt++` loop of
`Balancer.ServeHTTP`, one recursive call per iteration.  `fuel` is the
number of iterations the loop guard still admits
(`maxAttempts - attempt + 1`); `fuel = 0` is the loop guard failing,
after which Go falls off the end of the handler. -/
def serveLoop (outcomes : Nat → Outcome) (method : String)
    (canceled : Nat → Bool) (maxAttempts : Nat) (now : Int) :
    Nat → Nat → RouterState → RunLog → Response × RouterState × RunLog
  | 0, _, st, log => (.noResponse, st, log)
  | fuel + 1, attempt, st, log =>
    if canceled attempt then (.canceled499, st, log)
    else
      let healthy := getHealthyBackends st.pool
      let (sel, rr) := rrSelectBackend st.rr healthy
      let st := { st with rr := rr }
      match sel with
      | none => (.serviceUnavailable, st, log)
      | some b =>
        let key := b.url
        let (allow, cb) := (lookupBreaker st.breakers key).allowRequest now
        let st := { st with breakers := storeBreaker st.breakers key cb }
        if ¬ allow then
          if attempt < maxAttempts then
            serveLoop outcomes method canceled maxAttempts now fuel
              (attempt + 1) st log
          else (.serviceUnavailable, st, log)
        else
          let st :=
            { st with
              pool := updatePool st.pool key Backend.incrementActiveRequests }
          let log := { log with incs := log.incs ++ [key] }
          match outcomes attempt with
          | .panicked =>
            (.panicked, st, { log with forwards := log.forwards + 1 })
          | .status code =>
            let log := { log with forwards := log.forwards + 1 }
            let st :=
              { st with
                pool := updatePool st.pool key Backend.decrementActiveRequests }
            let log := { log with decs := log.decs ++ [key] }
            if 500 ≤ code then
              let st :=
                { st with
                  pool := passiveRecordFailure st.pool key st.passiveThreshold
                  breakers := storeBreaker st.breakers key
                    ((lookupBreaker st.breakers key).recordFailure now) }
              match st.policy with
              | none => (.upstream code, st, log)
              | some p =>
                let (retry, p) :=
                  p.shouldRetry ⟨method, canceled attempt⟩
                    (some (statusErrText code)) (attempt : Int) now
                let st := { st with policy := some p }
                if retry then
                  serveLoop outcomes method canceled maxAttempts now fuel
                    (attempt + 1) st log
                else (.upstream code, st, log)
            else
              let st :=
                { st with
                  pool := passiveRecordSuccess st.pool key
                  breakers := storeBreaker st.breakers key
                    ((lookupBreaker st.breakers key).recordSuccess now) }
              (.upstream code, st, log)

/-- Go `Balancer.ServeHTTP` (retry version): when a retry policy is
configured, track the request on the budget and allow up to 3 total
attempts (the `maxAttempts = 3` literal in the source); otherwise a
single attempt.  Then run the attempt loop. -/
def serveHTTP (st : RouterState) (method : String) (canceled : Nat → Bool)
    (outcomes : Nat → Outcome) (now : Int) :
    Response × RouterState × RunLog :=
  match st.policy with
  | some p =>
    let st := { st with policy := some { p with budget := p.budget.trackRequest } }
    serveLoop outcomes method canceled 3 now 3 1 st ⟨0, [], []⟩
  | none =>
    serveLoop outcomes method canceled 1 now 1 1 st ⟨0, [], []⟩

/-- Erase the stored retry limit from a loop result, for comparing runs
that differ only in the configured `maxAttempts`. -/
def scrubMax (r : Response × RouterState × RunLog) :
    Response × RouterState × RunLog :=
  (r.1,
   { r.2.1 with
     policy := r.2.1.policy.map fun p => { p with maxAttempts := 0 } },
   r.2.2)

/-! ## Repeated smooth weighted selection over a fixed healthy set -/

/-- The strategy's entry map after `t` calls of
`WeightedRoundRobinStrategy.SelectBackend` with a constant healthy
snapshot `h`, starting from the freshly created strategy (empty map);
`ords t` is the iteration order the Go map's `range` produces inside
call number `t` (randomized anew on every call). -/
def wrrStateAtPerm (h : List Backend) (ords : Nat → List Nat) :
    Nat → List WeightedBackend
  | 0 => []
  | t + 1 => (wrrSelectBackendPerm (wrrStateAtPerm h ords t) h (ords t)).2

/-- The backend returned by call number `t` (0-based) of
`WeightedRoundRobinStrategy.SelectBackend` with constant healthy
snapshot `h` and per-call map iteration orders `ords`. -/
def wrrPickPerm (h : List Backend) (ords : Nat → List Nat) (t : Nat) :
    Option Backend :=
  (wrrSelectBackendPerm (wrrStateAtPerm h ords t) h (ords t)).1

/-! # Theorems -/

/-- C3: a CLOSED breaker transitions to OPEN on a recorded failure iff
the failure timestamps inside the 10-second sliding window, counting the
newly recorded one, number at least 5; and the recorded window keeps
exactly the in-window timestamps (older ones are evicted), so evicted
timestamps never count toward opening. -/
theorem c3_closed_opens_iff_five_in_window (cb : CircuitBreaker) (now : Int)
    (hclosed : cb.state = .closed) :
    ((cb.recordFailure now).state = .opened ↔
      cbFailureThreshold ≤
        (cb.recentFailures.filter fun t =>
          decide (now - cbWindowSize < t)).length + 1)
    ∧ (cb.recordFailure now).recentFailures =
        (cb.recentFailures.filter fun t =>
          decide (now - cbWindowSize < t)) ++ [now] := by
  have hnow : now - cbWindowSize < now := by
    simp only [cbWindowSize]; omega
  have hfilter :
      ((cb.recentFailures ++ [now]).filter fun t =>
        decide (now - cbWindowSize < t)) =
      (cb.recentFailures.filter fun t =>
        decide (now - cbWindowSize < t)) ++ [now] := by
    rw [List.filter_append]
    simp [hnow]
  rw [CircuitBreaker.recordFailure]
  simp only [CircuitBreaker.cleanOldFailures, hclosed, hfilter]
  have h1 : ¬ (CircuitState.closed = CircuitState.halfOpen) := by decide
  simp only [if_neg h1, if_true]
  have hlen :
      ((cb.recentFailures.filter fun t =>
        decide (now - cbWindowSize < t)) ++ [now]).length =
      (cb.recentFailures.filter fun t =>
        decide (now - cbWindowSize < t)).length + 1 := by
    rw [List.length_append]; rfl
  constructor
  · constructor
    · intro h
      by_contra hc
      rw [if_neg (by rw [hlen]; exact hc)] at h
      exact absurd h (by simp)
    · intro h
      rw [if_pos (by rw [hlen]; exact h)]
  · split <;> rfl

/-- C3 witness: a breaker with one stale failure (outside the window)
and four in-window failures opens on the fifth in-window failure; the
stale timestamp is evicted. -/
theorem c3_witness :
    let cb : CircuitBreaker :=
      { state := .closed, successes := 0, lastFailTime := 4,
        recentFailures := [-10000000000, 1, 2, 3, 4] }
    ((cb.recordFailure 10000000000).state = .opened ↔
      cbFailureThreshold ≤
        (cb.recentFailures.filter fun t =>
          decide (10000000000 - cbWindowSize < t)).length + 1)
    ∧ (cb.recordFailure 10000000000).recentFailures =
        (cb.recentFailures.filter fun t =>
          decide (10000000000 - cbWindowSize < t)) ++ [10000000000] :=
  c3_closed_opens_iff_five_in_window _ 10000000000 rfl

/-- C4: an OPEN breaker rejects strictly before 30 s have elapsed since
the last recorded failure and stays OPEN; the first `AllowRequest` at or
after the cooldown admits and moves to HALF_OPEN with a zeroed success
count; in HALF_OPEN, two consecutive recorded successes close the
breaker and clear the failure window; any recorded failure reopens it
and zeroes the success count; and every recorded failure stamps
`lastFailTime` with its own time. -/
theorem c4_open_halfopen_transitions :
    (∀ (cb : CircuitBreaker) (now : Int), cb.state = .opened →
        now - cb.lastFailTime < cbTimeout →
        cb.allowRequest now = (false, cb))
    ∧ (∀ (cb : CircuitBreaker) (now : Int), cb.state = .opened →
        cbTimeout ≤ now - cb.lastFailTime →
        (cb.allowRequest now).1 = true ∧
        (cb.allowRequest now).2.state = .halfOpen ∧
        (cb.allowRequest now).2.successes = 0)
    ∧ (∀ (cb : CircuitBreaker) (t1 t2 : Int),
        cb.state = .halfOpen → cb.successes = 0 →
        (cb.recordSuccess t1).state = .halfOpen ∧
        ((cb.recordSuccess t1).recordSuccess t2).state = .closed ∧
        ((cb.recordSuccess t1).recordSuccess t2).recentFailures = [] ∧
        ((cb.recordSuccess t1).recordSuccess t2).successes = 0)
    ∧ (∀ (cb : CircuitBreaker) (now : Int), cb.state = .halfOpen →
        (cb.recordFailure now).state = .opened ∧
        (cb.recordFailure now).successes = 0)
    ∧ (∀ (cb : CircuitBreaker) (now : Int),
        (cb.recordFailure now).lastFailTime = now) := by
  refine ⟨?_, ?_, ?_, ?_, ?_⟩
  · intro cb now hs ht
    rw [CircuitBreaker.allowRequest, hs]
    simp only [if_neg (by omega : ¬ cbTimeout ≤ now - cb.lastFailTime)]
  · intro cb now hs ht
    rw [CircuitBreaker.allowRequest, hs]
    simp [ht]
  · intro cb t1 t2 hs h0
    have h1 : cb.recordSuccess t1 =
        { cb with successes := 1 } := by
      rw [CircuitBreaker.recordSuccess]
      simp [hs, h0, cbSuccessThreshold]
    have h2 : (cb.recordSuccess t1).recordSuccess t2 =
        { cb with state := .closed, recentFailures := [], successes := 0 } := by
      rw [h1, CircuitBreaker.recordSuccess]
      simp [hs, cbSuccessThreshold]
    refine ⟨by rw [h1]; exact hs, by rw [h2], by rw [h2], by rw [h2]⟩
  · intro cb now hs
    rw [CircuitBreaker.recordFailure]
    simp [CircuitBreaker.cleanOldFailures, hs]
  · intro cb now
    rw [CircuitBreaker.recordFailure]
    simp only [CircuitBreaker.cleanOldFailures]
    split
    · rfl
    · split
      · split <;> rfl
      · rfl

/-- C4 witness: the OPEN/HALF_OPEN transitions exercised at concrete
breaker states and times. -/
theorem c4_witness :
    let cbOpen : CircuitBreaker :=
      { state := .opened, successes := 0, lastFailTime := 0,
        recentFailures := [0] }
    let cbHalf : CircuitBreaker :=
      { state := .halfOpen, successes := 0, lastFailTime := 0,
        recentFailures := [0] }
    (cbOpen.allowRequest 29999999999 = (false, cbOpen))
    ∧ ((cbOpen.allowRequest 30000000000).1 = true ∧
        (cbOpen.allowRequest 30000000000).2.state = .halfOpen ∧
        (cbOpen.allowRequest 30000000000).2.successes = 0)
    ∧ ((cbHalf.recordSuccess 1).state = .halfOpen ∧
        ((cbHalf.recordSuccess 1).recordSuccess 2).state = .closed ∧
        ((cbHalf.recordSuccess 1).recordSuccess 2).recentFailures = [] ∧
        ((cbHalf.recordSuccess 1).recordSuccess 2).successes = 0)
    ∧ ((cbHalf.recordFailure 3).state = .opened ∧
        (cbHalf.recordFailure 3).successes = 0)
    ∧ (cbHalf.recordFailure 7).lastFailTime = 7 := by
  refine ⟨?_, ?_, ?_, ?_, ?_⟩
  · exact c4_open_halfopen_transitions.1 _ _ rfl (by decide)
  · exact c4_open_halfopen_transitions.2.1 _ _ rfl (by decide)
  · exact c4_open_halfopen_transitions.2.2.1 _ 1 2 rfl rfl
  · exact c4_open_halfopen_transitions.2.2.2.1 _ 3 rfl
  · exact c4_open_halfopen_transitions.2.2.2.2 _ 7

/-- C5: a GET request with a live context, an attempt below the limit, a
budget holding tokens, and an error whose text is exactly the "EOF"
entry of the code's own `retryableErrors` list, is nevertheless not
retried: `isRetryableError` lowercases the error text before searching,
so the upper-case "EOF" pattern can never match and
`Policy.ShouldRetry` returns false. -/
theorem c5_eof_error_never_retried :
    let p : Policy := { maxAttempts := 3, budget := newBudget 20 0 }
    let req : GoRequest := { method := "GET", ctxCanceled := false }
    (req.ctxCanceled = false
      ∧ (1 : Int) < p.maxAttempts
      ∧ isIdempotent req.method = true
      ∧ "EOF" ∈ retryableErrors
      ∧ (p.budget.trackRequest.tryConsume 0).1 = true)
    ∧ isRetryableError (some "EOF") = false
    ∧ (p.shouldRetry req (some "EOF") 1 0).1 = false := by decide

/-- C7 counterexample: a freshly created budget (percent 20, no request
ever tracked) admits a retry: `TryConsume` returns true, because
`NewBudget` seeds the bucket with `1000*percent/100 = 200` tokens. -/
theorem c7_fresh_budget_admits_retry :
    ((newBudget 20 0).tryConsume 0).1 = true := by decide

/-- C7 amended: for every configured percent, a freshly created budget
holds `1000*clamped_percent/100 ≥ 10` seeded tokens, so the first
`TryConsume` before any tracked request succeeds (rather than failing
as the claim states). -/
theorem c7_fresh_budget_always_admits (percent now : Int) :
    ((newBudget percent now).tryConsume now).1 = true := by
  have hq : (0 : Int) < (newBudget percent now).tokens := by
    show (0 : Int) <
      1000 * (if percent < 1 then 1 else if percent > 100 then 100 else percent) / 100
    split_ifs <;> omega
  have hl : (newBudget percent now).lastRefill = now := rfl
  simp only [Budget.tryConsume, Budget.refill]
  split_ifs <;> first | rfl | (exfalso; omega)

/-- C9 counterexample: starting from a fresh backend (alive, HEALTHY),
the single public operation `SetAlive(false)` leaves the state HEALTHY
while `IsAlive` reports false, so the claimed equivalence fails for
sequences containing `SetAlive`. -/
theorem c9_setalive_breaks_invariant :
    ((newBackend "a").applyOps [.setAlive false]).isAlive = false
    ∧ ((newBackend "a").applyOps [.setAlive false]).getState = .Healthy := by
  decide

/-- C9 amended: after any sequence of the public mutating operations
other than `SetAlive` (`SetState`, the health-check recorders,
`SetWeight`, active-count increment/decrement), a backend satisfying
`IsAlive ↔ state = HEALTHY` still satisfies it: `SetState` rewrites
`alive` in the same critical section and no other listed operation
touches either field. -/
theorem c9_alive_iff_healthy_without_setalive (b : Backend)
    (ops : List BackendOp)
    (hb : b.isAlive = true ↔ b.getState = .Healthy)
    (hops : ∀ op ∈ ops, ∀ a, op ≠ .setAlive a) :
    (b.applyOps ops).isAlive = true ↔
      (b.applyOps ops).getState = .Healthy := by
  induction ops generalizing b with
  | nil => exact hb
  | cons op ops ih =>
    have hop := hops op (List.mem_cons_self op ops)
    have hrest : ∀ op ∈ ops, ∀ a, op ≠ .setAlive a := fun o ho a =>
      hops o (List.mem_cons_of_mem op ho) a
    rw [Backend.applyOps, List.foldl_cons]
    refine ih (b.applyOp op) ?_ hrest
    cases op with
    | setState s =>
      cases s <;>
        simp [Backend.applyOp, Backend.setState, Backend.isAlive,
          Backend.getState]
    | setAlive a => exact absurd rfl (hop a)
    | recordHealthCheckSuccess =>
      simpa [Backend.applyOp, Backend.recordHealthCheckSuccess,
        Backend.isAlive, Backend.getState] using hb
    | recordHealthCheckFailure =>
      simpa [Backend.applyOp, Backend.recordHealthCheckFailure,
        Backend.isAlive, Backend.getState] using hb
    | setWeight w =>
      simpa [Backend.applyOp, Backend.setWeight, Backend.isAlive,
        Backend.getState] using hb
    | incActive =>
      simpa [Backend.applyOp, Backend.incrementActiveRequests,
        Backend.isAlive, Backend.getState] using hb
    | decActive =>
      simpa [Backend.applyOp, Backend.decrementActiveRequests,
        Backend.isAlive, Backend.getState] using hb

/-- C9 amended, witness: a concrete `SetAlive`-free operation sequence
on a fresh backend preserves the equivalence. -/
theorem c9_witness :
    ((newBackend "a").applyOps
        [.setState .Down, .recordHealthCheckFailure, .setWeight 7,
          .incActive, .setState .Healthy]).isAlive = true ↔
      ((newBackend "a").applyOps
        [.setState .Down, .recordHealthCheckFailure, .setWeight 7,
          .incActive, .setState .Healthy]).getState = .Healthy :=
  c9_alive_iff_healthy_without_setalive _ _ (by decide) (by decide)

/-- C10: the exporter writes `float64(b.GetState())` — the `iota`
ordinal, under which HEALTHY is 0 and DOWN is 3 — while the gauge's own
Help string (and the claim) documents DOWN=0, UNHEALTHY=1, DRAINING=2,
HEALTHY=3.  At state DOWN the gauge reads 3 where the documented
encoding says 0, and at HEALTHY it reads 0 where the documentation says
3 (the two encodings agree only on UNHEALTHY and DRAINING). -/
theorem c10_backend_state_gauge_encoding_bug :
    exportedBackendStateValue ((newBackend "a").setState .Down) = 3
    ∧ HealthState.documentedGaugeCode .Down = 0
    ∧ exportedBackendStateValue ((newBackend "a").setState .Healthy) = 0
    ∧ HealthState.documentedGaugeCode .Healthy = 3 := by decide

/-- C1: a request whose forwarding attempt panics (as
`httputil.ReverseProxy` does with `http.ErrAbortHandler` when the
client disconnects mid-copy) increments the backend's active-request
counter but never decrements it: the retry-capable `ServeHTTP` calls
`DecrementActiveRequests` on the line after forwarding instead of
deferring it, so the panic exit path leaves the counter elevated at 1
and the increment/decrement counts unbalanced. -/
theorem c1_panic_skips_decrement :
    let st : RouterState :=
      { pool := [newBackend "b1"], rr := ⟨0⟩, breakers := [],
        policy := none, passiveThreshold := 5 }
    let r := serveHTTP st "GET" (fun _ => false) (fun _ => .panicked) 0
    r.1 = .panicked
    ∧ r.2.2.incs = ["b1"]
    ∧ r.2.2.decs = []
    ∧ r.2.1.pool.map Backend.getActiveRequests = [1] := by decide

/-! ### Helper lemmas: the maximum scan, the least-connections fold, and
reconciliation -/

/-- Invariant of the smooth weighted round-robin maximum scan: either no
element beats the running best (and the accumulated selection is
returned), or the scan returns the position of the first maximum among
the elements, which also beats the running best. -/
theorem wrrScanAux_spec (cs : List Int) :
    ∀ (i : Nat) (best : Int) (sel : Option Nat),
      ((∀ c ∈ cs, c ≤ best) ∧ wrrScanAux cs i best sel = sel)
      ∨ ∃ j, ∃ hj : j < cs.length,
          wrrScanAux cs i best sel = some (i + j)
          ∧ best < cs.get ⟨j, hj⟩
          ∧ (∀ k, (hk : k < cs.length) → cs.get ⟨k, hk⟩ ≤ cs.get ⟨j, hj⟩)
          ∧ (∀ k, (hk : k < j) →
              cs.get ⟨k, Nat.lt_trans hk hj⟩ < cs.get ⟨j, hj⟩) := by
  induction cs with
  | nil => exact fun i best sel => Or.inl ⟨by simp, rfl⟩
  | cons c cs ih =>
    intro i best sel
    by_cases hb : best < c
    · rcases ih (i + 1) c (some i) with ⟨hall, heq⟩ |
        ⟨j, hj, heq, hbest, hmax, hfirst⟩
      · refine Or.inr ⟨0, Nat.succ_pos _, ?_, hb, ?_, ?_⟩
        · rw [wrrScanAux, if_pos hb, heq]
          rfl
        · intro k hk
          rcases k with _ | k
          · exact le_refl _
          · exact hall _ (List.get_mem cs _ _)
        · intro k hk
          exact absurd hk (Nat.not_lt_zero k)
      · refine Or.inr ⟨j + 1, Nat.succ_lt_succ hj, ?_, ?_, ?_, ?_⟩
        · rw [wrrScanAux, if_pos hb, heq]
          congr 1
          omega
        · exact lt_trans hb hbest
        · intro k hk
          rcases k with _ | k
          · exact le_of_lt hbest
          · exact hmax k (Nat.lt_of_succ_lt_succ hk)
        · intro k hk
          rcases k with _ | k
          · exact hbest
          · exact hfirst k (Nat.lt_of_succ_lt_succ hk)
    · rcases ih (i + 1) best sel with ⟨hall, heq⟩ |
        ⟨j, hj, heq, hbest, hmax, hfirst⟩
      · refine Or.inl ⟨?_, by rw [wrrScanAux, if_neg hb, heq]⟩
        intro c' hc'
        rcases List.mem_cons.1 hc' with rfl | hc'
        · exact not_lt.1 hb
        · exact hall _ hc'
      · refine Or.inr ⟨j + 1, Nat.succ_lt_succ hj, ?_, hbest, ?_, ?_⟩
        · rw [wrrScanAux, if_neg hb, heq]
          congr 1
          omega
        · intro k hk
          rcases k with _ | k
          · exact le_trans (not_lt.1 hb) (le_of_lt hbest)
          · exact hmax k (Nat.lt_of_succ_lt_succ hk)
        · intro k hk
          rcases k with _ | k
          · exact lt_of_le_of_lt (not_lt.1 hb) hbest
          · exact hfirst k (Nat.lt_of_succ_lt_succ hk)

/-- The scan returns nothing iff every value is at most the
`math.MinInt` sentinel. -/
theorem wrrScan_eq_none_iff (cs : List Int) :
    wrrScan cs = none ↔ ∀ c ∈ cs, c ≤ minInt64 := by
  rcases wrrScanAux_spec cs 0 minInt64 none with ⟨hall, heq⟩ |
    ⟨j, hj, heq, hbest, _, _⟩
  · exact ⟨fun _ => hall, fun _ => heq⟩
  · rw [wrrScan] at *
    rw [heq]
    constructor
    · intro h; cases h
    · intro hall
      exact absurd hbest (not_lt.2 (hall _ (List.get_mem cs _ _)))

/-- When the scan returns a position, that position is in range, its
value beats the sentinel, it is maximal, and it is the first maximum. -/
theorem wrrScan_eq_some_spec (cs : List Int) (j : Nat)
    (h : wrrScan cs = some j) :
    ∃ hj : j < cs.length, minInt64 < cs.get ⟨j, hj⟩
      ∧ (∀ k, (hk : k < cs.length) → cs.get ⟨k, hk⟩ ≤ cs.get ⟨j, hj⟩)
      ∧ (∀ k, (hk : k < j) →
          cs.get ⟨k, Nat.lt_trans hk hj⟩ < cs.get ⟨j, hj⟩) := by
  rcases wrrScanAux_spec cs 0 minInt64 none with ⟨_, heq⟩ |
    ⟨j', hj', heq, hbest, hmax, hfirst⟩
  · rw [wrrScan] at h; rw [heq] at h; cases h
  · rw [wrrScan] at h; rw [heq] at h
    have hjj : j = j' := by
      have := Option.some.inj h
      omega
    subst hjj
    exact ⟨hj', hbest, hmax, hfirst⟩

/-- The least-connections fold either keeps the accumulator (when no
element goes below the accumulated minimum) or returns an element of
the list. -/
theorem lcFold_mem (l : List Backend) :
    ∀ acc : Option Backend × Int,
      ((l.foldl (fun acc b =>
          if b.getActiveRequests < acc.2 then (some b, b.getActiveRequests)
          else acc) acc).1 = acc.1)
      ∨ ∃ b ∈ l, (l.foldl (fun acc b =>
          if b.getActiveRequests < acc.2 then (some b, b.getActiveRequests)
          else acc) acc).1 = some b := by
  induction l with
  | nil => exact fun acc => Or.inl rfl
  | cons b l ih =>
    intro acc
    rw [List.foldl_cons]
    by_cases hb : b.getActiveRequests < acc.2
    · rw [if_pos hb]
      rcases ih (some b, b.getActiveRequests) with h | ⟨b', hb', h⟩
      · exact Or.inr ⟨b, List.mem_cons_self b l, h⟩
      · exact Or.inr ⟨b', List.mem_cons_of_mem _ hb', h⟩
    · rw [if_neg hb]
      rcases ih acc with h | ⟨b', hb', h⟩
      · exact Or.inl h
      · exact Or.inr ⟨b', List.mem_cons_of_mem _ hb', h⟩

/-- The least-connections fold yields no backend iff it started with
none and no element is strictly below the accumulated minimum. -/
theorem lcFold_none_iff (l : List Backend) :
    ∀ acc : Option Backend × Int,
      ((l.foldl (fun acc b =>
          if b.getActiveRequests < acc.2 then (some b, b.getActiveRequests)
          else acc) acc).1 = none
        ↔ acc.1 = none ∧ ∀ b ∈ l, acc.2 ≤ b.getActiveRequests) := by
  induction l with
  | nil => exact fun acc => by simp
  | cons b l ih =>
    intro acc
    rw [List.foldl_cons]
    by_cases hb : b.getActiveRequests < acc.2
    · rw [if_pos hb, ih]
      apply iff_of_false
      · rintro ⟨h, -⟩; cases h
      · rintro ⟨-, h2⟩
        exact absurd (h2 b (List.mem_cons_self b l)) (not_le.2 hb)
    · rw [if_neg hb, ih]
      constructor
      · rintro ⟨h1, h2⟩
        refine ⟨h1, fun b' hb' => ?_⟩
        rcases List.mem_cons.1 hb' with rfl | hb''
        · exact not_lt.1 hb
        · exact h2 _ hb''
      · rintro ⟨h1, h2⟩
        exact ⟨h1, fun b' hb' => h2 _ (List.mem_cons_of_mem _ hb')⟩

/-- Mapping a field that a `modify` does not touch is invariant. -/
theorem map_modify_eq {α β : Type} (g : α → β) (f : α → α)
    (hgf : ∀ a, g (f a) = g a) :
    ∀ (j : Nat) (l : List α), (l.modify f j).map g = l.map g := by
  intro j l
  induction l generalizing j with
  | nil => simp
  | cons a l ih =>
    rcases j with _ | j
    · rw [List.modify_zero_cons]
      simp [hgf]
    · rw [List.modify_succ_cons]
      simp [ih]

/-- Every reconciled entry's stored backend carries the URL key of some
member of the healthy snapshot (either the snapshot backend it was just
created from, or the cached instance found under that key). -/
theorem wrrReconcile_backend_url (es : List WeightedBackend)
    (h : List Backend) :
    ∀ e ∈ wrrReconcile es h, e.backend.url ∈ h.map Backend.url := by
  intro e he
  rw [wrrReconcile] at he
  rcases List.mem_map.1 he with ⟨b, hb, hbe⟩
  rw [reconcileEntry] at hbe
  rcases hfind : es.find? (fun e' => e'.backend.url = b.url) with _ | e'
  · rw [hfind] at hbe
    simp only at hbe
    rw [← hbe]
    exact List.mem_map.2 ⟨b, hb, rfl⟩
  · rw [hfind] at hbe
    simp only at hbe
    have hurl : e'.backend.url = b.url := by
      have := List.find?_some hfind
      simpa using this
    rw [← hbe]
    show e'.backend.url ∈ h.map Backend.url
    rw [hurl]
    exact List.mem_map.2 ⟨b, hb, rfl⟩

/-- A smooth step permutes current weights only: the stored backends are
unchanged. -/
theorem wrrStep_backends (es : List WeightedBackend) :
    ((wrrStep es).1).map (fun e => e.backend) =
      es.map fun e => e.backend := by
  rw [wrrStep]
  have hbumped : (wrrBumped es).map (fun e => e.backend) =
      es.map fun e => e.backend := by
    rw [wrrBumped, List.map_map]
    rfl
  rcases hscan : wrrScan ((wrrBumped es).map fun e => e.currentWeight)
    with _ | j
  · simpa [hscan] using hbumped
  · simp only [hscan]
    rw [map_modify_eq (fun e : WeightedBackend => e.backend)
      (fun e : WeightedBackend =>
        { e with currentWeight := e.currentWeight -
          ((wrrBumped es).map fun e => e.weight).sum })
      (fun a => rfl) j (wrrBumped es)]
    exact hbumped

/-- C2 counterexample: a non-empty healthy set on which least-connections
returns `nil`: when every healthy backend's active-request count equals
`math.MaxInt64` (the scan's sentinel), the strict comparison never fires
and no backend is selected, refuting "returns none iff the healthy
subset is empty". -/
theorem c2_leastconn_nil_on_nonempty :
    lcSelectBackend [{ newBackend "a" with active := maxInt64 }] = none
    ∧ ([{ newBackend "a" with active := maxInt64 }] : List Backend) ≠ [] := by
  constructor
  · decide
  · intro h; cases h

/-- C2 amended: selection characterized per strategy.  Round-robin
returns none iff the healthy snapshot is empty, and any returned backend
is a member.  Least-connections returns a member whenever it returns a
backend, but returns none iff the snapshot is empty OR every member's
active count is at least the `math.MaxInt64` sentinel.  Smooth weighted
round-robin returns none iff the snapshot is empty or every reconciled
entry's incremented current weight is at most the `math.MinInt`
sentinel, and any returned backend matches a member of the snapshot by
URL key (it may be the strategy's cached instance for that key rather
than the snapshot element itself). -/
theorem c2_select_characterization :
    (∀ (rr : RoundRobinStrategy) (h : List Backend),
        ((rrSelectBackend rr h).1 = none ↔ h = [])
        ∧ ∀ b, (rrSelectBackend rr h).1 = some b → b ∈ h)
    ∧ (∀ h : List Backend,
        (lcSelectBackend h = none ↔
          h = [] ∨ ∀ b ∈ h, maxInt64 ≤ b.getActiveRequests)
        ∧ ∀ b, lcSelectBackend h = some b → b ∈ h)
    ∧ (∀ (es : List WeightedBackend) (h : List Backend),
        ((wrrSelectBackend es h).1 = none ↔
          h = [] ∨ ∀ e ∈ wrrBumped (wrrReconcile es h),
            e.currentWeight ≤ minInt64)
        ∧ ∀ b, (wrrSelectBackend es h).1 = some b →
            b.url ∈ h.map Backend.url) := by
  refine ⟨?_, ?_, ?_⟩
  · intro rr h
    by_cases hl : h.length = 0
    · rw [rrSelectBackend, if_pos hl]
      simp [List.length_eq_zero.1 hl]
    · have hidx : ((rr.counter + 1) % 2 ^ 64 + (2 ^ 64 - 1)) % 2 ^ 64 %
          h.length < h.length := Nat.mod_lt _ (Nat.pos_of_ne_zero hl)
      have hres : (rrSelectBackend rr h).1 =
          h.get? (((rr.counter + 1) % 2 ^ 64 + (2 ^ 64 - 1)) % 2 ^ 64 %
            h.length) := by
        rw [rrSelectBackend, if_neg hl]
      refine ⟨?_, ?_⟩
      · rw [hres, List.get?_eq_get hidx]
        constructor
        · intro hc; cases hc
        · intro hc; exact absurd hc (by simpa using hl)
      · intro b hb
        rw [hres] at hb
        exact List.get?_mem hb
  · intro h
    by_cases hl : h.length = 0
    · have : h = [] := List.length_eq_zero.1 hl
      subst this
      refine ⟨by simp [lcSelectBackend], ?_⟩
      intro b hb
      rw [lcSelectBackend] at hb
      cases hb
    · have hres : lcSelectBackend h =
          (h.foldl (fun acc b =>
            if b.getActiveRequests < acc.2 then (some b, b.getActiveRequests)
            else acc) (none, maxInt64)).1 := by
        rw [lcSelectBackend, if_neg hl]
      refine ⟨?_, ?_⟩
      · rw [hres, lcFold_none_iff h (none, maxInt64)]
        constructor
        · rintro ⟨-, h2⟩; exact Or.inr h2
        · rintro (rfl | h2)
          · simp at hl
          · exact ⟨rfl, h2⟩
      · intro b hb
        rw [hres] at hb
        rcases lcFold_mem h (none, maxInt64) with hk | ⟨b', hb', h'⟩
        · rw [hb] at hk; cases hk
        · rw [hb] at h'
          have hbb : b = b' := Option.some.inj h'
          rw [hbb]
          exact hb'
  · intro es h
    by_cases hl : h.length = 0
    · rw [wrrSelectBackend, if_pos hl]
      simp [List.length_eq_zero.1 hl]
    · have hne : h ≠ [] := by
        intro hc; rw [hc] at hl; exact hl rfl
      rcases hscan : wrrScan ((wrrBumped (wrrReconcile es h)).map
        fun e => e.currentWeight) with _ | j
      · have hres : (wrrSelectBackend es h).1 = none := by
          rw [wrrSelectBackend, if_neg hl]
          simp only [wrrStep, hscan]
          rfl
        refine ⟨?_, ?_⟩
        · rw [hres]
          constructor
          · intro _
            refine Or.inr fun e he => ?_
            exact (wrrScan_eq_none_iff _).1 hscan _
              (List.mem_map.2 ⟨e, he, rfl⟩)
          · intro _; rfl
        · intro b hb; rw [hres] at hb; cases hb
      · rcases wrrScan_eq_some_spec _ _ hscan with ⟨hj, hsent, -, -⟩
        have hstep : (wrrStep (wrrReconcile es h)).1 =
            (wrrBumped (wrrReconcile es h)).modify
              (fun e => { e with currentWeight := e.currentWeight -
                ((wrrBumped (wrrReconcile es h)).map fun e => e.weight).sum })
              j := by
          simp only [wrrStep, hscan]
        have hjlen : j < ((wrrStep (wrrReconcile es h)).1).length := by
          rw [hstep, List.length_modify]
          rw [List.length_map] at hj
          exact hj
        have hres : (wrrSelectBackend es h).1 =
            some (((wrrStep (wrrReconcile es h)).1).get ⟨j, hjlen⟩).backend := by
          rw [wrrSelectBackend, if_neg hl]
          show ((wrrStep (wrrReconcile es h)).2.bind fun k =>
            (((wrrStep (wrrReconcile es h)).1).get? k).map fun e => e.backend) =
            some (((wrrStep (wrrReconcile es h)).1).get ⟨j, hjlen⟩).backend
          have hsel : (wrrStep (wrrReconcile es h)).2 = some j := by
            simp only [wrrStep, hscan]
          rw [hsel, Option.some_bind, List.get?_eq_get hjlen]
          rfl
        refine ⟨?_, ?_⟩
        · rw [hres]
          apply iff_of_false
          · intro hc; cases hc
          · rintro (rfl | hall)
            · exact hne rfl
            · have hmem : ((wrrBumped (wrrReconcile es h)).map
                  fun e => e.currentWeight).get ⟨j, hj⟩ ∈
                  (wrrBumped (wrrReconcile es h)).map
                    fun e => e.currentWeight :=
                List.get_mem _ _ _
              rcases List.mem_map.1 hmem with ⟨e, he, heq⟩
              rw [← heq] at hsent
              exact absurd hsent (not_lt.2 (hall e he))
        · intro b hb
          rw [hres] at hb
          have hbb := Option.some.inj hb
          have hbmem : b ∈ ((wrrStep (wrrReconcile es h)).1).map
              fun e => e.backend := by
            rw [← hbb]
            exact List.mem_map.2 ⟨_, List.get_mem _ j hjlen, rfl⟩
          rw [wrrStep_backends] at hbmem
          rcases List.mem_map.1 hbmem with ⟨e, he, heq⟩
          rw [← heq]
          exact wrrReconcile_backend_url es h e he

/-- C2 amended, witness: the three characterizations applied at concrete
inputs — round-robin and least-connections return the sole healthy
backend (a member), and weighted round-robin's result key is in the
snapshot. -/
theorem c2_witness :
    (newBackend "a") ∈ [newBackend "a"]
    ∧ ({ newBackend "b" with active := 2 } : Backend) ∈
        [{ newBackend "b" with active := 2 }]
    ∧ (newBackend "c").url ∈ ([newBackend "c"].map Backend.url) := by
  refine ⟨?_, ?_, ?_⟩
  · exact (c2_select_characterization.1 ⟨0⟩ [newBackend "a"]).2
      (newBackend "a") (by decide)
  · exact (c2_select_characterization.2.1
      [{ newBackend "b" with active := 2 }]).2
      { newBackend "b" with active := 2 } (by decide)
  · exact (c2_select_characterization.2.2 [] [newBackend "c"]).2
      (newBackend "c") (by decide)

/-! ### C6: the Router's retry count -/

/-- Results with equal scrubbed forms have equal logs. -/
theorem scrub_log_eq {r s : Response × RouterState × RunLog}
    (h : scrubMax r = scrubMax s) : r.2.2 = s.2.2 :=
  congrArg (fun x => x.2.2) h

/-- Changing the stored retry limit to one that decides the attempt-limit
test identically at every attempt the remaining fuel can reach changes
neither the loop's response, nor its log, nor any state component other
than the stored limit itself. -/
theorem serveLoop_maxAttempts_congr (o : Nat → Outcome) (m : String)
    (c : Nat → Bool) (mA : Nat) (now : Int) (M N : Int) :
    ∀ (fuel att : Nat) (pool : List Backend) (rr : RoundRobinStrategy)
      (brs : List (String × CircuitBreaker)) (bg : Budget) (thr : Int)
      (log : RunLog),
      (∀ a : Nat, att ≤ a → a < att + fuel →
        ((M ≤ (a : Int)) ↔ (N ≤ (a : Int)))) →
      scrubMax (serveLoop o m c mA now fuel att
        { pool := pool, rr := rr, breakers := brs,
          policy := some { maxAttempts := M, budget := bg },
          passiveThreshold := thr } log) =
      scrubMax (serveLoop o m c mA now fuel att
        { pool := pool, rr := rr, breakers := brs,
          policy := some { maxAttempts := N, budget := bg },
          passiveThreshold := thr } log) := by
  intro fuel
  induction fuel with
  | zero => intro att pool rr brs bg thr log hagree; rfl
  | succ fuel ih =>
    intro att pool rr brs bg thr log hagree
    have hiff : (M ≤ (att : Int)) ↔ (N ≤ (att : Int)) :=
      hagree att le_rfl (by omega)
    simp only [serveLoop, Policy.shouldRetry, hiff]
    split
    · rfl
    · split
      · rfl
      · split
        · split
          · exact ih (att + 1) _ _ _ _ _ _
              fun a h1 h2 => hagree a (by omega) (by omega)
          · rfl
        · split
          · rfl
          · split
            · split
              · rfl
              · split
                · rfl
                · split
                  · rfl
                  · split
                    · exact ih (att + 1) _ _ _ _ _ _
                        fun a h1 h2 => hagree a (by omega) (by omega)
                    · rfl
            · rfl

/-- C6 counterexample: with configured `max_attempts = 4`, a GET request
whose every forwarding attempt returns 503 (single healthy backend,
fresh breakers, seeded budget, no cancellation) is forwarded only 3
times, not the 4 the claim requires: `ServeHTTP` hardcodes
`maxAttempts = 3` whenever a retry policy is configured. -/
theorem c6_hardcoded_cap_counterexample :
    (serveHTTP
      { pool := [newBackend "b1"], rr := ⟨0⟩, breakers := [],
        policy := some ⟨4, newBudget 20 0⟩, passiveThreshold := 5 }
      "GET" (fun _ => false) (fun _ => .status 503) 0).2.2.forwards = 3 := by
  decide

/-- C6 amended: with a retry policy configured with any
`max_attempts ≥ 1`, a freshly seeded budget (percent 20, so 200 tokens
and no refill due at time 0), a single healthy backend, fresh breakers
and no cancellation, a GET request whose every forwarding attempt yields
503 is forwarded exactly `min max_attempts 3` times (the loop is
hard-capped at 3 total attempts; the configured limit governs only below
the cap). -/
theorem c6_forwards_min_configured_three (M : Int) (hM : 1 ≤ M) :
    (serveHTTP
      { pool := [newBackend "b1"], rr := ⟨0⟩, breakers := [],
        policy := some ⟨M, newBudget 20 0⟩, passiveThreshold := 5 }
      "GET" (fun _ => false) (fun _ => .status 503) 0).2.2.forwards =
      min M.toNat 3 := by
  rcases (by omega : M = 1 ∨ M = 2 ∨ M = 3 ∨ 4 ≤ M) with rfl | rfl | rfl | h4
  · decide
  · decide
  · decide
  · have hmin : min M.toNat 3 = 3 := by omega
    rw [hmin]
    have hcong := serveLoop_maxAttempts_congr (fun _ => .status 503) "GET"
      (fun _ => false) 3 0 M 4 3 1 [newBackend "b1"] ⟨0⟩ []
      ((newBudget 20 0).trackRequest) 5 ⟨0, [], []⟩
      (fun a h1 h2 => by omega)
    have hser : (serveHTTP
        { pool := [newBackend "b1"], rr := ⟨0⟩, breakers := [],
          policy := some ⟨M, newBudget 20 0⟩, passiveThreshold := 5 }
        "GET" (fun _ => false) (fun _ => .status 503) 0) =
        serveLoop (fun _ => .status 503) "GET" (fun _ => false) 3 0 3 1
          { pool := [newBackend "b1"], rr := ⟨0⟩, breakers := [],
            policy := some ⟨M, (newBudget 20 0).trackRequest⟩,
            passiveThreshold := 5 } ⟨0, [], []⟩ := rfl
    have h22 := scrub_log_eq hcong
    rw [hser, h22]
    decide

/-- C6 amended, witness: with configured `max_attempts = 2` and a fresh
budget, exactly 2 forwarding attempts are made. -/
theorem c6_witness :
    (serveHTTP
      { pool := [newBackend "b1"], rr := ⟨0⟩, breakers := [],
        policy := some ⟨2, newBudget 20 0⟩, passiveThreshold := 5 }
      "GET" (fun _ => false) (fun _ => .status 503) 0).2.2.forwards =
      min (2 : Int).toNat 3 :=
  c6_forwards_min_configured_three 2 (by decide)

/-! ### C8: smooth weighted round-robin and window distribution

The distribution proof factors the strategy's entry list into the fixed
part (the backends and their weights, constant over a fixed healthy
snapshot) and the dynamic part (the `currentWeight` vector), and keeps
the Go map's per-call randomized iteration order as an explicit
parameter: `smoothCWPerm`/`smoothSelPerm` below are the dynamics of
`wrrStepPerm` on the `currentWeight` vector under an arbitrary sequence
of iteration orders; the correspondence with `wrrSelectBackendPerm` is
proved further down.  The per-block distribution holds for every order
sequence, while an unaligned window can fail it (the counterexample at
the end of this section). -/

/-- The `currentWeight` vector after `t` smooth selections over fixed
weights `w`, starting from the all-zero vector that reconciliation
assigns to fresh entries, when call number `s` scans the entries in the
iteration order `ords s`.  Each step adds the weights, then subtracts
the total weight at the scan's chosen position — exactly the
`currentWeight` arithmetic of `wrrStepPerm`. -/
def smoothCWPerm (w : List Int) (ords : Nat → List Nat) : Nat → List Int
  | 0 => List.replicate w.length 0
  | t + 1 =>
    let d := List.zipWith (· + ·) (smoothCWPerm w ords t) w
    match wrrScanPerm d (ords t) with
    | some j => d.modify (fun c => c - w.sum) j
    | none => d

/-- The incremented `currentWeight` vector that selection `t` scans. -/
def dvecPerm (w : List Int) (ords : Nat → List Nat) (t : Nat) : List Int :=
  List.zipWith (· + ·) (smoothCWPerm w ords t) w

/-- The position chosen by selection number `t` (0-based). -/
def smoothSelPerm (w : List Int) (ords : Nat → List Nat) (t : Nat) :
    Option Nat :=
  wrrScanPerm (dvecPerm w ords t) (ords t)

/-- How many of the selections `0, …, t-1` chose position `i`. -/
def selCountPerm (w : List Int) (ords : Nat → List Nat) (i t : Nat) : Nat :=
  ((Finset.range t).filter fun s => smoothSelPerm w ords s = some i).card

/-- The entry list determined by a backend list and a `currentWeight`
vector: each entry stores the backend, its configured weight, and the
corresponding current weight. -/
def entriesOf (h : List Backend) (cs : List Int) : List WeightedBackend :=
  List.zipWith
    (fun b c => { backend := b, weight := b.weight, currentWeight := c })
    h cs

theorem list_getD_eq_get (l : List Int) :
    ∀ (i : Nat), (h : i < l.length) → l.getD i 0 = l.get ⟨i, h⟩ := by
  induction l with
  | nil => intro i h; simp at h
  | cons c l ih =>
    intro i h
    rcases i with _ | i
    · rfl
    · exact ih i (by simpa using h)

/-- Running invariant of the selection loop's fold: a selected position
is in range and carries the running best, the best starts at the
sentinel and never decreases, and every scanned in-range position is
bounded by the final best. -/
theorem scanFold_spec (cws : List Int) :
    ∀ (ord : List Nat) (acc : Option Nat × Int),
      (∀ j, acc.1 = some j → j < cws.length ∧ cws.getD j 0 = acc.2) →
      (acc.1 = none → acc.2 = minInt64) →
      minInt64 ≤ acc.2 →
      (∀ j, (ord.foldl (scanStep cws) acc).1 = some j →
          j < cws.length ∧
            cws.getD j 0 = (ord.foldl (scanStep cws) acc).2) ∧
        ((ord.foldl (scanStep cws) acc).1 = none →
          (ord.foldl (scanStep cws) acc).2 = minInt64) ∧
        minInt64 ≤ (ord.foldl (scanStep cws) acc).2 ∧
        acc.2 ≤ (ord.foldl (scanStep cws) acc).2 ∧
        ∀ k ∈ ord, k < cws.length →
          cws.getD k 0 ≤ (ord.foldl (scanStep cws) acc).2 := by
  intro ord
  induction ord with
  | nil =>
    intro acc h1 h2 h3
    refine ⟨h1, h2, h3, le_refl _, ?_⟩
    intro k hk
    simp at hk
  | cons a ord ih =>
    intro acc h1 h2 h3
    rw [List.foldl_cons]
    rcases hga : cws.get? a with _ | c
    · have hstep : scanStep cws acc a = acc := by
        simp only [scanStep, hga]
      rw [hstep]
      rcases ih acc h1 h2 h3 with ⟨i1, i2, i3, i4, i5⟩
      refine ⟨i1, i2, i3, i4, ?_⟩
      intro k hk hklen
      rcases List.mem_cons.1 hk with rfl | hk2
      · exfalso
        have hnone : cws.length ≤ k := List.get?_eq_none.1 hga
        omega
      · exact i5 k hk2 hklen
    · have halen : a < cws.length := by
        by_contra hcon
        have hnone : cws.get? a = none := List.get?_eq_none.2 (by omega)
        rw [hga] at hnone
        cases hnone
      have hgd : cws.getD a 0 = c := by
        rw [list_getD_eq_get _ a halen]
        have hgg := List.get?_eq_get halen
        rw [hga] at hgg
        exact (Option.some.inj hgg).symm
      by_cases hlt : acc.2 < c
      · have hstep : scanStep cws acc a = (some a, c) := by
          simp only [scanStep, hga]
          rw [if_pos hlt]
        rw [hstep]
        have h1' : ∀ j, ((some a, c) : Option Nat × Int).1 = some j →
            j < cws.length ∧
              cws.getD j 0 = ((some a, c) : Option Nat × Int).2 := by
          intro j hj
          have hja : j = a := (Option.some.inj hj).symm
          subst hja
          exact ⟨halen, hgd⟩
        rcases ih (some a, c) h1' (fun hc => nomatch hc)
            (le_trans h3 (le_of_lt hlt)) with ⟨i1, i2, i3, i4, i5⟩
        refine ⟨i1, i2, i3, le_trans (le_of_lt hlt) i4, ?_⟩
        intro k hk hklen
        rcases List.mem_cons.1 hk with rfl | hk2
        · rw [hgd]
          exact i4
        · exact i5 k hk2 hklen
      · have hstep : scanStep cws acc a = acc := by
          simp only [scanStep, hga]
          rw [if_neg hlt]
        rw [hstep]
        rcases ih acc h1 h2 h3 with ⟨i1, i2, i3, i4, i5⟩
        refine ⟨i1, i2, i3, i4, ?_⟩
        intro k hk hklen
        rcases List.mem_cons.1 hk with rfl | hk2
        · rw [hgd]
          exact le_trans (not_lt.1 hlt) i4
        · exact i5 k hk2 hklen

/-- If the scanned order covers a position holding a value above the
sentinel, the scan selects something. -/
theorem wrrScanPerm_isSome (cws : List Int) (ord : List Nat)
    (hcov : ∀ k, k < cws.length → k ∈ ord)
    (hex : ∃ k, k < cws.length ∧ minInt64 < cws.getD k 0) :
    ∃ j, wrrScanPerm cws ord = some j := by
  rcases hex with ⟨k, hk, hkv⟩
  rcases hres : wrrScanPerm cws ord with _ | j
  · exfalso
    rcases scanFold_spec cws ord (none, minInt64)
        (fun j hj => nomatch hj) (fun _ => rfl) (le_refl _) with
      ⟨-, i2, -, -, i5⟩
    have hr : (ord.foldl (scanStep cws) (none, minInt64)).1 = none := hres
    have h2 := i2 hr
    have h5 := i5 k (hcov k hk) hk
    rw [h2] at h5
    omega
  · exact ⟨j, rfl⟩

/-- Whatever order the scan visits the positions in, a selected position
is in range and holds a maximal value. -/
theorem wrrScanPerm_some_spec (cws : List Int) (ord : List Nat) (j : Nat)
    (hres : wrrScanPerm cws ord = some j)
    (hcov : ∀ k, k < cws.length → k ∈ ord) :
    j < cws.length ∧ ∀ k, k < cws.length → cws.getD k 0 ≤ cws.getD j 0 := by
  rcases scanFold_spec cws ord (none, minInt64) (fun j hj => nomatch hj)
      (fun _ => rfl) (le_refl _) with ⟨i1, -, -, -, i5⟩
  have hr : (ord.foldl (scanStep cws) (none, minInt64)).1 = some j := hres
  rcases i1 j hr with ⟨hjlen, hjval⟩
  refine ⟨hjlen, fun k hk => ?_⟩
  rw [hjval]
  exact i5 k (hcov k hk) hk

theorem smoothCWPerm_length (w : List Int) (ords : Nat → List Nat)
    (t : Nat) : (smoothCWPerm w ords t).length = w.length := by
  induction t with
  | zero => simp [smoothCWPerm]
  | succ t ih =>
    rw [smoothCWPerm]
    rcases hscan : wrrScanPerm
        (List.zipWith (· + ·) (smoothCWPerm w ords t) w) (ords t)
      with _ | j
    · simp [hscan, List.length_zipWith, ih]
    · simp [hscan, List.length_modify, List.length_zipWith, ih]

theorem dvecPerm_length (w : List Int) (ords : Nat → List Nat) (t : Nat) :
    (dvecPerm w ords t).length = w.length := by
  rw [dvecPerm, List.length_zipWith, smoothCWPerm_length]
  omega

theorem zipWith_add_sum (cs : List Int) :
    ∀ w : List Int, cs.length = w.length →
      (List.zipWith (· + ·) cs w).sum = cs.sum + w.sum := by
  induction cs with
  | nil =>
    intro w hl
    cases w
    · simp
    · simp at hl
  | cons c cs ih =>
    intro w hl
    cases w with
    | nil => simp at hl
    | cons x w =>
      simp only [List.zipWith_cons_cons, List.sum_cons,
        ih w (by simpa using hl)]
      ring

theorem sum_modify_sub (T : Int) :
    ∀ (j : Nat) (l : List Int), j < l.length →
      (l.modify (fun c => c - T) j).sum = l.sum - T := by
  intro j l
  induction l generalizing j with
  | nil => intro hc; simp at hc
  | cons c l ih =>
    intro hlen
    rcases j with _ | j
    · rw [List.modify_zero_cons]
      simp only [List.sum_cons]
      ring
    · rw [List.modify_succ_cons]
      simp only [List.sum_cons, ih j (by simpa using hlen)]
      ring

theorem get?_modify_sub (T : Int) :
    ∀ (l : List Int) (j k : Nat),
      (l.modify (fun c => c - T) j).get? k =
        (l.get? k).map fun c => if j = k then c - T else c := by
  intro l
  induction l with
  | nil => intro j k; cases j <;> cases k <;> rfl
  | cons c l ih =>
    intro j k
    rcases j with _ | j
    · rcases k with _ | k
      · rw [List.modify_zero_cons]; rfl
      · rw [List.modify_zero_cons, List.get?_cons_succ,
          List.get?_cons_succ]
        rcases hg : l.get? k with _ | x
        · rfl
        · show some x = some (if 0 = k + 1 then x - T else x)
          rw [if_neg (by omega)]
    · rcases k with _ | k
      · rw [List.modify_succ_cons]
        show some c = some (if j + 1 = 0 then c - T else c)
        rw [if_neg (by omega)]
      · rw [List.modify_succ_cons, List.get?_cons_succ,
          List.get?_cons_succ, ih j k]
        rcases hg : l.get? k with _ | x
        · rfl
        · show some (if j = k then x - T else x) =
            some (if j + 1 = k + 1 then x - T else x)
          by_cases hjk : j = k
          · rw [if_pos hjk, if_pos (by omega)]
          · rw [if_neg hjk, if_neg (by omega)]

theorem getElem_modify_sub (T : Int) (l : List Int) (j k : Nat)
    (hk : k < l.length) :
    (l.modify (fun c => c - T) j).get
        ⟨k, by rw [List.length_modify]; exact hk⟩ =
      if j = k then l.get ⟨k, hk⟩ - T else l.get ⟨k, hk⟩ := by
  have hk2 : k < (l.modify (fun c => c - T) j).length := by
    rw [List.length_modify]; exact hk
  have h1 := get?_modify_sub T l j k
  rw [List.get?_eq_get hk, List.get?_eq_get hk2] at h1
  exact Option.some.inj h1

theorem getElem_dvecPerm (w : List Int) (ords : Nat → List Nat) (t : Nat)
    (k : Nat) (hk : k < w.length) :
    (dvecPerm w ords t).get ⟨k, by rw [dvecPerm_length]; exact hk⟩ =
      (smoothCWPerm w ords t).get
          ⟨k, by rw [smoothCWPerm_length]; exact hk⟩ +
        w.get ⟨k, hk⟩ := by
  have hd : k < (dvecPerm w ords t).length := by
    rw [dvecPerm_length]; exact hk
  have hc : k < (smoothCWPerm w ords t).length := by
    rw [smoothCWPerm_length]; exact hk
  have h1 : (dvecPerm w ords t).get? k =
      some ((smoothCWPerm w ords t).get ⟨k, hc⟩ + w.get ⟨k, hk⟩) := by
    rw [dvecPerm, List.get?_zipWith', List.get?_eq_get hc,
      List.get?_eq_get hk]
    rfl
  rw [List.get?_eq_get hd] at h1
  exact Option.some.inj h1

theorem sum_pos_exists_one_le :
    ∀ l : List Int, 0 < l.sum → ∃ x ∈ l, 1 ≤ x := by
  intro l
  induction l with
  | nil => intro hc; simp at hc
  | cons c l ih =>
    intro hpos
    by_cases hc : 1 ≤ c
    · exact ⟨c, List.mem_cons_self c l, hc⟩
    · rw [List.sum_cons] at hpos
      rcases ih (by omega) with ⟨x, hx, h1⟩
      exact ⟨x, List.mem_cons_of_mem _ hx, h1⟩

theorem one_le_listSum (w : List Int) (hne : w ≠ [])
    (hw : ∀ x ∈ w, 1 ≤ x) : 1 ≤ w.sum := by
  cases w with
  | nil => exact absurd rfl hne
  | cons c w =>
    rw [List.sum_cons]
    have h1 : 1 ≤ c := hw c (List.mem_cons_self c w)
    have h2 : 0 ≤ w.sum :=
      List.sum_nonneg fun x hx => le_trans zero_le_one
        (hw x (List.mem_cons_of_mem _ hx))
    omega

/-- The two running invariants of the smooth process, for every sequence
of iteration orders that covers the positions: the current weights
always sum to zero, and every current weight stays strictly above
`-Σw`. -/
theorem smoothCWPerm_invariant (w : List Int) (ords : Nat → List Nat)
    (hne : w ≠ []) (hw : ∀ x ∈ w, 1 ≤ x)
    (hords : ∀ t k, k < w.length → k ∈ ords t) (t : Nat) :
    (smoothCWPerm w ords t).sum = 0 ∧
      ∀ x ∈ smoothCWPerm w ords t, -w.sum < x := by
  have hT : 1 ≤ w.sum := one_le_listSum w hne hw
  induction t with
  | zero =>
    constructor
    · simp [smoothCWPerm]
    · intro x hx
      simp only [smoothCWPerm] at hx
      rw [List.eq_of_mem_replicate hx]
      omega
  | succ t ih =>
    obtain ⟨hsum, hlb⟩ := ih
    have hdsum : (dvecPerm w ords t).sum = w.sum := by
      rw [dvecPerm, zipWith_add_sum _ _ (smoothCWPerm_length w ords t), hsum]
      ring
    have hex : ∃ x ∈ dvecPerm w ords t, 1 ≤ x :=
      sum_pos_exists_one_le _ (by omega)
    have hcov : ∀ k, k < (dvecPerm w ords t).length → k ∈ ords t := by
      intro k hk
      rw [dvecPerm_length] at hk
      exact hords t k hk
    have hex2 : ∃ k, k < (dvecPerm w ords t).length ∧
        minInt64 < (dvecPerm w ords t).getD k 0 := by
      rcases hex with ⟨x, hx, h1⟩
      rcases List.mem_iff_get.1 hx with ⟨⟨k, hk⟩, hkx⟩
      refine ⟨k, hk, ?_⟩
      rw [list_getD_eq_get _ k hk, hkx, minInt64]
      omega
    rcases wrrScanPerm_isSome _ _ hcov hex2 with ⟨j, hj⟩
    rcases wrrScanPerm_some_spec _ _ j hj hcov with ⟨hjlen, hmaxD⟩
    have hmax : ∀ k, (hk : k < (dvecPerm w ords t).length) →
        (dvecPerm w ords t).get ⟨k, hk⟩ ≤
          (dvecPerm w ords t).get ⟨j, hjlen⟩ := by
      intro k hk
      have hle := hmaxD k hk
      rwa [list_getD_eq_get _ k hk, list_getD_eq_get _ j hjlen] at hle
    have hdj1 : 1 ≤ (dvecPerm w ords t).get ⟨j, hjlen⟩ := by
      rcases hex with ⟨x, hx, h1⟩
      rcases List.mem_iff_get.1 hx with ⟨⟨k, hk⟩, hkx⟩
      rw [← hkx] at h1
      exact le_trans h1 (hmax k hk)
    have hstep : smoothCWPerm w ords (t + 1) =
        (dvecPerm w ords t).modify (fun c => c - w.sum) j := by
      have hj' : wrrScanPerm
          (List.zipWith (· + ·) (smoothCWPerm w ords t) w) (ords t) =
          some j := hj
      simp only [smoothCWPerm, hj']
      rfl
    constructor
    · rw [hstep, sum_modify_sub _ _ _ hjlen, hdsum]
      ring
    · intro x hx
      rw [hstep] at hx
      rcases List.mem_iff_get.1 hx with ⟨⟨k, hk⟩, hkx⟩
      have hk' : k < (dvecPerm w ords t).length := by
        rw [List.length_modify] at hk
        exact hk
      have hkw : k < w.length := by
        rw [dvecPerm_length] at hk'
        exact hk'
      have hval := getElem_modify_sub w.sum (dvecPerm w ords t) j k hk'
      rw [hval] at hkx
      rw [← hkx]
      by_cases hjk : j = k
      · rw [if_pos hjk]
        subst hjk
        omega
      · rw [if_neg hjk]
        rw [getElem_dvecPerm w ords t k hkw]
        have h1 : -w.sum < (smoothCWPerm w ords t).get
            ⟨k, by rw [smoothCWPerm_length]; exact hkw⟩ :=
          hlb _ (List.get_mem _ _ _)
        have h2 : 1 ≤ w.get ⟨k, hkw⟩ := hw _ (List.get_mem _ _ _)
        omega

/-- Every selection of the smooth process chooses some in-range
position, whatever iteration order each call scans in. -/
theorem smoothSelPerm_spec (w : List Int) (ords : Nat → List Nat)
    (hne : w ≠ []) (hw : ∀ x ∈ w, 1 ≤ x)
    (hords : ∀ t k, k < w.length → k ∈ ords t) (t : Nat) :
    ∃ j, smoothSelPerm w ords t = some j ∧ j < w.length := by
  obtain ⟨hsum, hlb⟩ := smoothCWPerm_invariant w ords hne hw hords t
  have hT : 1 ≤ w.sum := one_le_listSum w hne hw
  have hdsum : (dvecPerm w ords t).sum = w.sum := by
    rw [dvecPerm, zipWith_add_sum _ _ (smoothCWPerm_length w ords t), hsum]
    ring
  have hcov : ∀ k, k < (dvecPerm w ords t).length → k ∈ ords t := by
    intro k hk
    rw [dvecPerm_length] at hk
    exact hords t k hk
  have hex2 : ∃ k, k < (dvecPerm w ords t).length ∧
      minInt64 < (dvecPerm w ords t).getD k 0 := by
    rcases sum_pos_exists_one_le _
        (by omega : 0 < (dvecPerm w ords t).sum) with ⟨x, hx, h1⟩
    rcases List.mem_iff_get.1 hx with ⟨⟨k, hk⟩, hkx⟩
    refine ⟨k, hk, ?_⟩
    rw [list_getD_eq_get _ k hk, hkx, minInt64]
    omega
  rcases wrrScanPerm_isSome _ _ hcov hex2 with ⟨j, hj⟩
  rcases wrrScanPerm_some_spec _ _ j hj hcov with ⟨hjlen, -⟩
  refine ⟨j, hj, ?_⟩
  rw [dvecPerm_length] at hjlen
  exact hjlen

theorem getD_modify_sub (T : Int) (l : List Int) (j k : Nat)
    (hk : k < l.length) :
    (l.modify (fun c => c - T) j).getD k 0 =
      if j = k then l.getD k 0 - T else l.getD k 0 := by
  have hk2 : k < (l.modify (fun c => c - T) j).length := by
    rw [List.length_modify]; exact hk
  rw [list_getD_eq_get _ k hk2, list_getD_eq_get l k hk,
    getElem_modify_sub T l j k hk]

theorem getD_dvecPerm (w : List Int) (ords : Nat → List Nat) (t k : Nat)
    (hk : k < w.length) :
    (dvecPerm w ords t).getD k 0 =
      (smoothCWPerm w ords t).getD k 0 + w.getD k 0 := by
  have h1 : k < (dvecPerm w ords t).length := by
    rw [dvecPerm_length]; exact hk
  have h2 : k < (smoothCWPerm w ords t).length := by
    rw [smoothCWPerm_length]; exact hk
  rw [list_getD_eq_get _ k h1, list_getD_eq_get _ k h2,
    list_getD_eq_get w k hk, getElem_dvecPerm w ords t k hk]

theorem selCountPerm_zero (w : List Int) (ords : Nat → List Nat)
    (i : Nat) : selCountPerm w ords i 0 = 0 := by
  simp [selCountPerm]

theorem selCountPerm_succ (w : List Int) (ords : Nat → List Nat)
    (i t : Nat) :
    selCountPerm w ords i (t + 1) =
      selCountPerm w ords i t +
        if smoothSelPerm w ords t = some i then 1 else 0 := by
  rw [selCountPerm, selCountPerm, Finset.range_succ, Finset.filter_insert]
  split
  · rw [Finset.card_insert_of_not_mem (by simp)]
  · rw [Nat.add_zero]

/-- The bookkeeping identity of the smooth process: after `t` steps, the
current weight of position `i` is `t·wᵢ` minus `Σw` for each time `i`
was chosen — whatever orders the calls scanned in. -/
theorem smoothCWPerm_getD_count (w : List Int) (ords : Nat → List Nat)
    (hne : w ≠ []) (hw : ∀ x ∈ w, 1 ≤ x)
    (hords : ∀ t k, k < w.length → k ∈ ords t) (t : Nat) :
    ∀ (i : Nat), i < w.length →
      (smoothCWPerm w ords t).getD i 0 =
        t * w.getD i 0 - w.sum * (selCountPerm w ords i t : Int) := by
  induction t with
  | zero =>
    intro i hi
    rw [selCountPerm_zero]
    have hz : (smoothCWPerm w ords 0).getD i 0 = 0 := by
      rw [list_getD_eq_get _ i (by rw [smoothCWPerm_length]; exact hi)]
      exact List.eq_of_mem_replicate
        (List.get_mem (List.replicate w.length 0) i _)
    rw [hz]
    push_cast
    ring
  | succ t ih =>
    intro i hi
    rcases smoothSelPerm_spec w ords hne hw hords t with ⟨j, hj, hjw⟩
    have hj' : wrrScanPerm
        (List.zipWith (· + ·) (smoothCWPerm w ords t) w) (ords t) =
        some j := hj
    have hstep : smoothCWPerm w ords (t + 1) =
        (dvecPerm w ords t).modify (fun c => c - w.sum) j := by
      simp only [smoothCWPerm, hj']
      rfl
    have hid : i < (dvecPerm w ords t).length := by
      rw [dvecPerm_length]; exact hi
    rw [hstep, getD_modify_sub _ _ _ _ hid, getD_dvecPerm w ords t i hi,
      ih i hi, selCountPerm_succ, hj]
    simp only [Option.some.injEq]
    by_cases hji : j = i
    · rw [if_pos hji, if_pos hji]
      push_cast
      ring
    · rw [if_neg hji, if_neg hji]
      push_cast
      ring

/-- Exactly one position is chosen per step, so the per-position counts
sum to the number of steps. -/
theorem selCountPerm_total (w : List Int) (ords : Nat → List Nat)
    (hne : w ≠ []) (hw : ∀ x ∈ w, 1 ≤ x)
    (hords : ∀ t k, k < w.length → k ∈ ords t) (t : Nat) :
    ∑ i in Finset.range w.length, (selCountPerm w ords i t : Int) = t := by
  induction t with
  | zero => simp [selCountPerm_zero]
  | succ t ih =>
    rcases smoothSelPerm_spec w ords hne hw hords t with ⟨j, hj, hjw⟩
    have hstep : ∀ i : Nat, selCountPerm w ords i (t + 1) =
        selCountPerm w ords i t + if j = i then 1 else 0 := by
      intro i
      rw [selCountPerm_succ, hj]
      simp only [Option.some.injEq]
    calc ∑ i in Finset.range w.length,
          (selCountPerm w ords i (t + 1) : Int)
        = ∑ i in Finset.range w.length,
            ((selCountPerm w ords i t : Int) + if j = i then 1 else 0) := by
          refine Finset.sum_congr rfl fun i _ => ?_
          rw [hstep i]
          push_cast
          rfl
      _ = (∑ i in Finset.range w.length,
            (selCountPerm w ords i t : Int)) +
            ∑ i in Finset.range w.length,
              (if j = i then (1 : Int) else 0) :=
          Finset.sum_add_distrib
      _ = t + 1 := by
          rw [ih, Finset.sum_ite_eq (Finset.range w.length) j
            fun _ => (1 : Int), if_pos (Finset.mem_range.2 hjw)]

theorem list_sum_eq_range_getD (l : List Int) :
    l.sum = ∑ i in Finset.range l.length, l.getD i 0 := by
  induction l with
  | nil => simp
  | cons c l ih =>
    rw [List.sum_cons, ih, List.length_cons, Finset.sum_range_succ']
    have h1 : ∀ i ∈ Finset.range l.length,
        (c :: l).getD (i + 1) 0 = l.getD i 0 := fun i _ => rfl
    rw [Finset.sum_congr rfl h1]
    show c + _ = _ + c
    ring

/-- Over the first `Σw` steps, position `i` is chosen exactly `wᵢ`
times, for every sequence of iteration orders: the counts are bounded by
the weights (from the `-Σw` lower bound on current weights) and sum to
`Σw`. -/
theorem selCountPerm_at_total (w : List Int) (ords : Nat → List Nat)
    (hne : w ≠ []) (hw : ∀ x ∈ w, 1 ≤ x)
    (hords : ∀ t k, k < w.length → k ∈ ords t) :
    ∀ (i : Nat), i < w.length →
      (selCountPerm w ords i w.sum.toNat : Int) = w.getD i 0 := by
  have hT : 1 ≤ w.sum := one_le_listSum w hne hw
  have hN : ((w.sum.toNat : Nat) : Int) = w.sum :=
    Int.toNat_of_nonneg (by omega)
  have hup : ∀ k ∈ Finset.range w.length,
      (selCountPerm w ords k w.sum.toNat : Int) ≤ w.getD k 0 := by
    intro k hk
    have hkw : k < w.length := Finset.mem_range.1 hk
    have hcount := smoothCWPerm_getD_count w ords hne hw hords
      w.sum.toNat k hkw
    have hks : k < (smoothCWPerm w ords w.sum.toNat).length := by
      rw [smoothCWPerm_length]; exact hkw
    rw [list_getD_eq_get _ k hks] at hcount
    have hlb := (smoothCWPerm_invariant w ords hne hw hords w.sum.toNat).2 _
      (List.get_mem (smoothCWPerm w ords w.sum.toNat) k hks)
    rw [hcount, hN] at hlb
    have hfac : w.sum * (-1) <
        w.sum * (w.getD k 0 - (selCountPerm w ords k w.sum.toNat : Int)) := by
      rw [mul_sub, mul_neg_one]
      exact hlb
    have hmul := lt_of_mul_lt_mul_left hfac (by omega : (0 : Int) ≤ w.sum)
    omega
  have hsums : ∑ k in Finset.range w.length,
      (selCountPerm w ords k w.sum.toNat : Int) =
        ∑ k in Finset.range w.length, w.getD k 0 := by
    rw [selCountPerm_total w ords hne hw hords, ← list_sum_eq_range_getD, hN]
  intro i hi
  exact (Finset.sum_eq_sum_iff_of_le hup).1 hsums i (Finset.mem_range.2 hi)

/-- After `Σw` steps the current-weight vector returns to all zeros,
whatever orders the calls scanned in. -/
theorem smoothCWPerm_at_total (w : List Int) (ords : Nat → List Nat)
    (hne : w ≠ []) (hw : ∀ x ∈ w, 1 ≤ x)
    (hords : ∀ t k, k < w.length → k ∈ ords t) :
    smoothCWPerm w ords w.sum.toNat = List.replicate w.length 0 := by
  have hT : 1 ≤ w.sum := one_le_listSum w hne hw
  apply List.ext_getElem
  · rw [smoothCWPerm_length, List.length_replicate]
  · intro n h1 h2
    have hn : n < w.length := by rw [smoothCWPerm_length] at h1; exact h1
    have e1 : (smoothCWPerm w ords w.sum.toNat)[n] =
        (smoothCWPerm w ords w.sum.toNat).getD n 0 := by
      rw [list_getD_eq_get _ n h1, List.get_eq_getElem]
    have e2 : (List.replicate w.length (0 : Int))[n] = 0 := by
      rw [List.getElem_replicate]
    rw [e1, e2, smoothCWPerm_getD_count w ords hne hw hords w.sum.toNat n hn,
      selCountPerm_at_total w ords hne hw hords n hn,
      Int.toNat_of_nonneg (by omega : (0 : Int) ≤ w.sum)]
    ring

/-- A run that has returned to the all-zero state continues exactly as a
fresh run under the shifted order sequence (the process is memoryless in
everything but the current weights). -/
theorem smoothCWPerm_shift (w : List Int) (ords : Nat → List Nat)
    (t0 : Nat) (hz : smoothCWPerm w ords t0 = List.replicate w.length 0) :
    ∀ s, smoothCWPerm w ords (t0 + s) =
      smoothCWPerm w (fun u => ords (t0 + u)) s := by
  intro s
  induction s with
  | zero =>
    rw [Nat.add_zero, hz]
    rfl
  | succ s ih =>
    have h1 : t0 + (s + 1) = (t0 + s) + 1 := by omega
    rw [h1]
    show smoothCWPerm w ords ((t0 + s) + 1) = _
    rw [smoothCWPerm, ih, smoothCWPerm]

theorem smoothSelPerm_shift (w : List Int) (ords : Nat → List Nat)
    (t0 : Nat) (hz : smoothCWPerm w ords t0 = List.replicate w.length 0)
    (s : Nat) :
    smoothSelPerm w ords (t0 + s) =
      smoothSelPerm w (fun u => ords (t0 + u)) s := by
  rw [smoothSelPerm, smoothSelPerm, dvecPerm, dvecPerm,
    smoothCWPerm_shift w ords t0 hz s]

/-- The current weights are all zero at every multiple of `Σw`, for
every sequence of iteration orders. -/
theorem smoothCWPerm_zero_at_mul (w : List Int) (ords : Nat → List Nat)
    (hne : w ≠ []) (hw : ∀ x ∈ w, 1 ≤ x)
    (hords : ∀ t k, k < w.length → k ∈ ords t) :
    ∀ k : Nat, smoothCWPerm w ords (k * w.sum.toNat) =
      List.replicate w.length 0 := by
  intro k
  induction k with
  | zero =>
    rw [Nat.zero_mul]
    rfl
  | succ k ih =>
    have h1 : (k + 1) * w.sum.toNat = k * w.sum.toNat + w.sum.toNat := by
      ring
    rw [h1, smoothCWPerm_shift w ords (k * w.sum.toNat) ih w.sum.toNat]
    exact smoothCWPerm_at_total w (fun u => ords (k * w.sum.toNat + u))
      hne hw (fun t j hj => hords (k * w.sum.toNat + t) j hj)

/-- Reindexing a window of naturals to start at zero preserves a
filtered count. -/
theorem filter_Ico_card_shift (a T : Nat) (p : Nat → Prop)
    [DecidablePred p] :
    ((Finset.Ico a (a + T)).filter p).card =
      ((Finset.range T).filter fun u => p (a + u)).card := by
  have h1 : Finset.Ico a (a + T) =
      Finset.map (addLeftEmbedding a) (Finset.Ico 0 T) := by
    rw [Finset.map_add_left_Ico, Nat.add_zero]
  rw [h1, Finset.filter_map, Finset.card_map, Finset.range_eq_Ico]
  congr 1

/-- In every aligned block of `Σw` consecutive selections, position `i`
is chosen exactly `wᵢ` times, for every sequence of iteration orders:
the state is all-zero at the block's start, so the block behaves as a
fresh first period. -/
theorem selCountPerm_aligned (w : List Int) (ords : Nat → List Nat)
    (hne : w ≠ []) (hw : ∀ x ∈ w, 1 ≤ x)
    (hords : ∀ t k, k < w.length → k ∈ ords t) (i k : Nat)
    (hi : i < w.length) :
    (((Finset.Ico (k * w.sum.toNat) (k * w.sum.toNat + w.sum.toNat)).filter
        fun s => smoothSelPerm w ords s = some i).card : Int) =
      w.getD i 0 := by
  have hz := smoothCWPerm_zero_at_mul w ords hne hw hords k
  have hcard : ((Finset.Ico (k * w.sum.toNat)
      (k * w.sum.toNat + w.sum.toNat)).filter
        fun s => smoothSelPerm w ords s = some i).card =
      ((Finset.range w.sum.toNat).filter
        fun u => smoothSelPerm w ords (k * w.sum.toNat + u) = some i).card :=
    filter_Ico_card_shift _ _ _
  have hcongr : ((Finset.range w.sum.toNat).filter
      fun u => smoothSelPerm w ords (k * w.sum.toNat + u) = some i) =
      ((Finset.range w.sum.toNat).filter
        fun u => smoothSelPerm w (fun v => ords (k * w.sum.toNat + v)) u =
          some i) := by
    apply Finset.filter_congr
    intro u _
    rw [smoothSelPerm_shift w ords (k * w.sum.toNat) hz u]
  rw [hcard, hcongr]
  exact selCountPerm_at_total w (fun v => ords (k * w.sum.toNat + v))
    hne hw (fun t j hj => hords (k * w.sum.toNat + t) j hj) i hi

theorem entriesOf_cons (b : Backend) (h : List Backend) (c : Int)
    (cs : List Int) :
    entriesOf (b :: h) (c :: cs) =
      { backend := b, weight := b.weight, currentWeight := c } ::
        entriesOf h cs := rfl

theorem wrrBumped_entriesOf (h : List Backend) :
    ∀ cs : List Int,
      wrrBumped (entriesOf h cs) =
        entriesOf h (List.zipWith (· + ·) cs (h.map fun b => b.weight)) := by
  induction h with
  | nil => intro cs; rfl
  | cons b h ih =>
    intro cs
    cases cs with
    | nil => rfl
    | cons c cs =>
      calc wrrBumped (entriesOf (b :: h) (c :: cs))
          = { backend := b, weight := b.weight,
              currentWeight := c + b.weight } ::
              wrrBumped (entriesOf h cs) := rfl
        _ = { backend := b, weight := b.weight,
              currentWeight := c + b.weight } ::
              entriesOf h
                (List.zipWith (· + ·) cs (h.map fun b => b.weight)) := by
            rw [ih cs]
        _ = entriesOf (b :: h)
              (List.zipWith (· + ·) (c :: cs)
                ((b :: h).map fun b => b.weight)) := rfl

theorem entriesOf_map_weight (h : List Backend) :
    ∀ cs : List Int, cs.length = h.length →
      (entriesOf h cs).map (fun e => e.weight) = h.map fun b => b.weight := by
  induction h with
  | nil => intro cs _; rfl
  | cons b h ih =>
    intro cs hlen
    cases cs with
    | nil => simp at hlen
    | cons c cs =>
      simp only [entriesOf_cons, List.map_cons]
      rw [ih cs (by simpa using hlen)]

theorem entriesOf_map_cw (h : List Backend) :
    ∀ cs : List Int, cs.length = h.length →
      (entriesOf h cs).map (fun e => e.currentWeight) = cs := by
  induction h with
  | nil =>
    intro cs hlen
    cases cs
    · rfl
    · simp at hlen
  | cons b h ih =>
    intro cs hlen
    cases cs with
    | nil => simp at hlen
    | cons c cs =>
      simp only [entriesOf_cons, List.map_cons]
      rw [ih cs (by simpa using hlen)]

theorem entriesOf_modify (h : List Backend) (T : Int) :
    ∀ (cs : List Int) (j : Nat),
      (entriesOf h cs).modify
          (fun e => { e with currentWeight := e.currentWeight - T }) j =
        entriesOf h (cs.modify (fun c => c - T) j) := by
  induction h with
  | nil =>
    intro cs j
    show List.modify _ j [] = entriesOf [] _
    rw [List.modify_nil]
    rfl
  | cons b h ih =>
    intro cs j
    cases cs with
    | nil =>
      show List.modify _ j [] = entriesOf (b :: h) (List.modify _ j [])
      rw [List.modify_nil, List.modify_nil]
      rfl
    | cons c cs =>
      rcases j with _ | j
      · simp only [entriesOf_cons, List.modify_zero_cons]
      · simp only [entriesOf_cons, List.modify_succ_cons]
        rw [ih cs j]

theorem entriesOf_get?_backend (h : List Backend) :
    ∀ (cs : List Int) (j : Nat), cs.length = h.length →
      ((entriesOf h cs).get? j).map (fun e => e.backend) = h.get? j := by
  induction h with
  | nil =>
    intro cs j hlen
    cases cs
    · cases j <;> rfl
    · simp at hlen
  | cons b h ih =>
    intro cs j hlen
    cases cs with
    | nil => simp at hlen
    | cons c cs =>
      rcases j with _ | j
      · rfl
      · simp only [entriesOf_cons, List.get?_cons_succ]
        exact ih cs j (by simpa using hlen)

/-- One `wrrStepPerm` over entries in canonical form stays in canonical
form: the fixed part is untouched, the `currentWeight` vector takes the
abstract step. -/
theorem wrrStepPerm_entriesOf (h : List Backend) (cs : List Int)
    (hlen : cs.length = h.length) (ord : List Nat) (j : Nat)
    (hscan : wrrScanPerm
      (List.zipWith (· + ·) cs (h.map fun b => b.weight)) ord = some j) :
    wrrStepPerm (entriesOf h cs) ord =
      (entriesOf h
        ((List.zipWith (· + ·) cs (h.map fun b => b.weight)).modify
          (fun c => c - (h.map fun b => b.weight).sum) j),
       some j) := by
  have hdlen : (List.zipWith (· + ·) cs
      (h.map fun b => b.weight)).length = h.length := by
    rw [List.length_zipWith, List.length_map]
    omega
  simp only [wrrStepPerm, wrrBumped_entriesOf h cs,
    entriesOf_map_cw h _ hdlen, entriesOf_map_weight h _ hdlen, hscan]
  rw [entriesOf_modify]

/-- Reconciling freshly created entries against an unchanged healthy
snapshot with pairwise-distinct URL keys is a no-op (every key is found,
and the refreshed weight is the weight already stored). -/
theorem wrrReconcile_entriesOf :
    ∀ (h : List Backend), (h.map Backend.url).Nodup →
      ∀ cs : List Int, cs.length = h.length →
        wrrReconcile (entriesOf h cs) h = entriesOf h cs := by
  intro h
  induction h with
  | nil => intro _ cs _; rfl
  | cons b h ih =>
    intro hnd cs hlen
    cases cs with
    | nil => simp at hlen
    | cons c cs =>
      have hlen' : cs.length = h.length := by simpa using hlen
      rw [List.map_cons, List.nodup_cons] at hnd
      obtain ⟨hbnotin, hnd'⟩ := hnd
      rw [wrrReconcile, List.map_cons]
      have hhead : reconcileEntry (entriesOf (b :: h) (c :: cs)) b =
          { backend := b, weight := b.weight, currentWeight := c } := by
        rw [reconcileEntry, entriesOf_cons,
          List.find?_cons_of_pos _ (by simp)]
      have htail : ∀ b' ∈ h,
          reconcileEntry (entriesOf (b :: h) (c :: cs)) b' =
          reconcileEntry (entriesOf h cs) b' := by
        intro b' hb'
        have hneq : ¬ (b.url = b'.url) := by
          intro hc
          refine hbnotin ?_
          rw [hc]
          exact List.mem_map.2 ⟨b', hb', rfl⟩
        rw [reconcileEntry, reconcileEntry, entriesOf_cons,
          List.find?_cons_of_neg _ (by simp [hneq])]
      rw [hhead, List.map_congr_left htail, entriesOf_cons]
      congr 1
      exact ih hnd' cs hlen'

theorem wrrReconcile_nil (h : List Backend) :
    wrrReconcile [] h = entriesOf h (List.replicate h.length 0) := by
  induction h with
  | nil => rfl
  | cons b h ih =>
    rw [wrrReconcile, List.map_cons]
    rw [show List.replicate (b :: h).length (0 : Int) =
      0 :: List.replicate h.length 0 from rfl]
    rw [entriesOf_cons, ← ih]
    rfl

/-- The strategy's reconciled entry list after `t` selections over a
fixed healthy snapshot carries exactly the abstract current-weight
vector `smoothCWPerm`, for every sequence of map iteration orders. -/
theorem wrr_state_correspondence (h : List Backend) (hne : h ≠ [])
    (hnd : (h.map Backend.url).Nodup) (hw : ∀ b ∈ h, 1 ≤ b.weight)
    (ords : Nat → List Nat)
    (hords : ∀ t k, k < h.length → k ∈ ords t) (t : Nat) :
    wrrReconcile (wrrStateAtPerm h ords t) h =
      entriesOf h (smoothCWPerm (h.map fun b => b.weight) ords t) := by
  have hwlen : (h.map fun b => b.weight).length = h.length :=
    List.length_map h _
  have hwne : (h.map fun b => b.weight) ≠ [] := by
    intro hc
    exact hne (List.map_eq_nil_iff.1 hc)
  have hww : ∀ x ∈ h.map fun b => b.weight, 1 ≤ x := by
    intro x hx
    rcases List.mem_map.1 hx with ⟨b, hb, rfl⟩
    exact hw b hb
  have hords' : ∀ t k, k < (h.map fun b => b.weight).length →
      k ∈ ords t := by
    intro t k hk
    rw [hwlen] at hk
    exact hords t k hk
  induction t with
  | zero =>
    show wrrReconcile [] h = _
    rw [show smoothCWPerm (h.map fun b => b.weight) ords 0 =
      List.replicate (h.map fun b => b.weight).length 0 from rfl]
    rw [hwlen]
    exact wrrReconcile_nil h
  | succ t ih =>
    have hl : ¬ (h.length = 0) := by
      intro hc
      exact hne (List.length_eq_zero.1 hc)
    have h2 : wrrStateAtPerm h ords (t + 1) =
        (wrrStepPerm (wrrReconcile (wrrStateAtPerm h ords t) h)
          (ords t)).1 := by
      rw [wrrStateAtPerm, wrrSelectBackendPerm, if_neg hl]
    rcases smoothSelPerm_spec _ ords hwne hww hords' t with ⟨j, hj, hjw⟩
    have hj2 : wrrScanPerm (List.zipWith (· + ·)
        (smoothCWPerm (h.map fun b => b.weight) ords t)
        (h.map fun b => b.weight)) (ords t) = some j := hj
    have hcs : (smoothCWPerm (h.map fun b => b.weight) ords t).length =
        h.length := by
      rw [smoothCWPerm_length, hwlen]
    have hstep : smoothCWPerm (h.map fun b => b.weight) ords (t + 1) =
        (List.zipWith (· + ·)
          (smoothCWPerm (h.map fun b => b.weight) ords t)
          (h.map fun b => b.weight)).modify
            (fun c => c - (h.map fun b => b.weight).sum) j := by
      simp only [smoothCWPerm, hj2]
    rw [h2, ih, wrrStepPerm_entriesOf h _ hcs (ords t) j hj2, hstep]
    refine wrrReconcile_entriesOf h hnd _ ?_
    rw [List.length_modify, List.length_zipWith, hcs, hwlen]
    omega

/-- The backend returned by selection `t` over a fixed healthy snapshot
is the snapshot element at the abstract process's chosen position, for
every sequence of map iteration orders. -/
theorem wrr_pick_correspondence (h : List Backend) (hne : h ≠ [])
    (hnd : (h.map Backend.url).Nodup) (hw : ∀ b ∈ h, 1 ≤ b.weight)
    (ords : Nat → List Nat)
    (hords : ∀ t k, k < h.length → k ∈ ords t) (t : Nat) :
    wrrPickPerm h ords t =
      (smoothSelPerm (h.map fun b => b.weight) ords t).bind
        fun j => h.get? j := by
  have hwlen : (h.map fun b => b.weight).length = h.length :=
    List.length_map h _
  have hwne : (h.map fun b => b.weight) ≠ [] := by
    intro hc
    exact hne (List.map_eq_nil_iff.1 hc)
  have hww : ∀ x ∈ h.map fun b => b.weight, 1 ≤ x := by
    intro x hx
    rcases List.mem_map.1 hx with ⟨b, hb, rfl⟩
    exact hw b hb
  have hords' : ∀ t k, k < (h.map fun b => b.weight).length →
      k ∈ ords t := by
    intro t k hk
    rw [hwlen] at hk
    exact hords t k hk
  have hl : ¬ (h.length = 0) := by
    intro hc
    exact hne (List.length_eq_zero.1 hc)
  rcases smoothSelPerm_spec _ ords hwne hww hords' t with ⟨j, hj, hjw⟩
  have hj2 : wrrScanPerm (List.zipWith (· + ·)
      (smoothCWPerm (h.map fun b => b.weight) ords t)
      (h.map fun b => b.weight)) (ords t) = some j := hj
  have hcs : (smoothCWPerm (h.map fun b => b.weight) ords t).length =
      h.length := by
    rw [smoothCWPerm_length, hwlen]
  have hres : wrrPickPerm h ords t =
      ((wrrStepPerm (wrrReconcile (wrrStateAtPerm h ords t) h)
          (ords t)).2.bind fun k =>
        (((wrrStepPerm (wrrReconcile (wrrStateAtPerm h ords t) h)
          (ords t)).1).get? k).map fun e => e.backend) := by
    rw [wrrPickPerm, wrrSelectBackendPerm, if_neg hl]
  rw [hres, wrr_state_correspondence h hne hnd hw ords hords t,
    wrrStepPerm_entriesOf h _ hcs (ords t) j hj2]
  show ((some j).bind fun k =>
      ((entriesOf h _).get? k).map fun e => e.backend) = _
  rw [Option.some_bind, entriesOf_get?_backend h _ j
    (by rw [List.length_modify, List.length_zipWith, hcs, hwlen]; omega),
    hj, Option.some_bind]

set_option maxRecDepth 8000 in
/-- C8 counterexample: the Go map's per-call randomized iteration order
can break currentWeight ties differently in consecutive periods.  With
two weight-1 backends (Σ weights = 2) and the orders below — snapshot
order on every call except call number 2, where the map presents the
entries reversed — the picks are a, b, b, a, so the window of 2
consecutive selections starting at selection 1 returns backend "b"
twice, not its weight 1: the claimed every-window distribution fails on
the program.  The first conjunct checks that every order used covers
both entry positions, as a map `range` does. -/
theorem c8_unaligned_window_counterexample :
    (∀ (u k : Nat), k < 2 →
      k ∈ (if u = 2 then [1, 0] else ([0, 1] : List Nat))) ∧
    ((Finset.Ico 1 3).filter
        fun t => wrrPickPerm [newBackend "a", newBackend "b"]
          (fun u => if u = 2 then [1, 0] else [0, 1]) t =
          some (newBackend "b")).card ≠ ((newBackend "b").weight).toNat := by
  constructor
  · intro u k hk
    rcases (by omega : k = 0 ∨ k = 1) with rfl | rfl <;> split <;> simp
  · decide

/-- C8 amended: over a fixed healthy snapshot with pairwise-distinct URL
keys and weights at least 1, whatever entry order the Go map's
randomized `range` produces at each call (any order covering all entry
positions), every aligned block of `Σ weights` consecutive
`SelectBackend` calls — selections `k·Σw` through `(k+1)·Σw − 1` of a
freshly created strategy — returns backend `i` exactly `weightᵢ` times.
Unaligned windows can miss this (see the counterexample): a window
straddling a block boundary compares tie-breaks of two different map
orders. -/
theorem c8_aligned_window_distribution (h : List Backend)
    (hne : h ≠ []) (hnd : (h.map Backend.url).Nodup)
    (hw : ∀ b ∈ h, 1 ≤ b.weight) (ords : Nat → List Nat)
    (hords : ∀ t k, k < h.length → k ∈ ords t) (k i : Nat)
    (hi : i < h.length) :
    ((Finset.Ico (k * ((h.map fun b : Backend => b.weight).sum).toNat)
        (k * ((h.map fun b : Backend => b.weight).sum).toNat +
          ((h.map fun b : Backend => b.weight).sum).toNat)).filter
        fun t => wrrPickPerm h ords t = some (h.get ⟨i, hi⟩)).card =
      ((h.get ⟨i, hi⟩).weight).toNat := by
  have hwlen : (h.map fun b => b.weight).length = h.length :=
    List.length_map h _
  have hwne : (h.map fun b => b.weight) ≠ [] := by
    intro hc
    exact hne (List.map_eq_nil_iff.1 hc)
  have hww : ∀ x ∈ h.map fun b => b.weight, 1 ≤ x := by
    intro x hx
    rcases List.mem_map.1 hx with ⟨b, hb, rfl⟩
    exact hw b hb
  have hords' : ∀ t j, j < (h.map fun b => b.weight).length →
      j ∈ ords t := by
    intro t j hj
    rw [hwlen] at hj
    exact hords t j hj
  have hiw : i < (h.map fun b => b.weight).length := by
    rw [hwlen]; exact hi
  have hcond : ∀ t, (wrrPickPerm h ords t = some (h.get ⟨i, hi⟩)) ↔
      smoothSelPerm (h.map fun b => b.weight) ords t = some i := by
    intro t
    rw [wrr_pick_correspondence h hne hnd hw ords hords t]
    rcases smoothSelPerm_spec _ ords hwne hww hords' t with ⟨j, hj, hjw⟩
    have hjh : j < h.length := by rw [hwlen] at hjw; exact hjw
    rw [hj, Option.some_bind, List.get?_eq_get hjh]
    constructor
    · intro hc
      have hgets := Option.some.inj hc
      have hnd2 : h.Nodup := List.Nodup.of_map _ hnd
      have hfin : (⟨j, hjh⟩ : Fin h.length) = ⟨i, hi⟩ :=
        (List.Nodup.get_inj_iff hnd2).1 hgets
      have hji : j = i := Fin.mk.inj_iff.1 hfin
      rw [hji]
    · intro hc
      have hji : j = i := Option.some.inj hc
      subst hji
      rfl
  have hfe : (Finset.Ico
        (k * ((h.map fun b : Backend => b.weight).sum).toNat)
        (k * ((h.map fun b : Backend => b.weight).sum).toNat +
          ((h.map fun b : Backend => b.weight).sum).toNat)).filter
      (fun t => wrrPickPerm h ords t = some (h.get ⟨i, hi⟩)) =
      (Finset.Ico
        (k * ((h.map fun b : Backend => b.weight).sum).toNat)
        (k * ((h.map fun b : Backend => b.weight).sum).toNat +
          ((h.map fun b : Backend => b.weight).sum).toNat)).filter
        fun s => smoothSelPerm (h.map fun b => b.weight) ords s =
          some i := by
    apply Finset.filter_congr
    intro s _
    rw [hcond s]
  rw [hfe]
  have halign := selCountPerm_aligned (h.map fun b => b.weight) ords
    hwne hww hords' i k hiw
  have hwg : (h.map fun b => b.weight).getD i 0 =
      (h.get ⟨i, hi⟩).weight := by
    rw [list_getD_eq_get _ i hiw, List.get_map]
  rw [hwg] at halign
  omega

/-- C8 amended, witness: backends "a" (weight 2) and "b" (weight 1),
snapshot iteration order on every call; in the aligned block of
selections 3–5 backend "a" is returned exactly its weight's worth of
times. -/
theorem c8_witness :
    ((Finset.Ico (1 * ((([(newBackend "a").setWeight 2, newBackend "b"]).map
          fun b : Backend => b.weight).sum).toNat)
        (1 * ((([(newBackend "a").setWeight 2, newBackend "b"]).map
          fun b : Backend => b.weight).sum).toNat +
          ((([(newBackend "a").setWeight 2, newBackend "b"]).map
            fun b : Backend => b.weight).sum).toNat)).filter
        fun t => wrrPickPerm [(newBackend "a").setWeight 2, newBackend "b"]
          (fun _ => [0, 1]) t =
          some (([(newBackend "a").setWeight 2,
            newBackend "b"]).get ⟨0, by decide⟩)).card =
      ((([(newBackend "a").setWeight 2,
        newBackend "b"]).get ⟨0, by decide⟩).weight).toNat :=
  c8_aligned_window_distribution
    [(newBackend "a").setWeight 2, newBackend "b"]
    (by decide) (by decide) (by decide) (fun _ => [0, 1])
    (fun t k hk => by
      simp only [List.length_cons, List.length_nil] at hk
      rcases (by omega : k = 0 ∨ k = 1) with rfl | rfl <;> simp)
    1 0 (by decide)

end GoBalance
